import Mathlib

/-!
# BuzzwordComplianceEngine: a shallow embedding and its verified properties

Source: `src/main/cpp/enterprise/BuzzwordComplianceEngine.cpp`
(class `Enterprise::Synergy::BuzzwordComplianceEngine`).

Modelling conventions.

* `std::string` is `List Char`; one `Char` stands for one C++ `char`.
* `int` is the 32-bit two's-complement integer, held in `ℤ` with its range made
  explicit where the source can leave it, and `size_t` is `ℕ`.
  - `int word_count = std::count(...) + 1` converts the 64-bit count to `int`:
    `narrowToInt`, the value modulo `2^32` taken in `[-2^31, 2^31)`.  So
    `word_count` is `INT_MIN` for a text with `2^31 - 1` spaces and `0` for one
    with `2^32 - 1` spaces.
  - `static_cast<int>(ratio * 1000)` is `Double.toInt`: truncation toward zero
    when the result fits, and otherwise (where C++ leaves the conversion
    undefined) the value `INT_MIN` that the x86-64 conversion instruction
    returns.
  - `buzzword_count` and `current_buzzwords` are only ever incremented from 0.
    `current_buzzwords` is at most the size of the vocabulary.  `buzzword_count`
    is kept without a bound: it can leave the `int` range only on a text with
    at least `2^31` occurrences, where the increment itself is a signed
    overflow without defined behaviour.
* `double` is IEEE-754 binary64 with round-to-nearest, ties-to-even.  A finite
  double is the rational number it denotes and every arithmetic operation on
  finite doubles is the exact rational operation followed by `rnd`.  The
  exponent is unbounded, which is exact here: a text has fewer than `2^64`
  characters, so every finite value the engine computes is zero or has a
  magnitude between `2^-32` and `2^74`.  The type `Double` adds the infinities
  and NaN, which arise when `word_count` is `0`.
* `std::mt19937` with `std::uniform_int_distribution` is an oracle: the engine
  carries an arbitrary infinite sequence `rng` together with a `cursor`; a draw
  from `uniform_int_distribution<int>(0, hi)` returns `rng cursor % (hi + 1)`
  and advances the cursor.  Every in-range result is produced by some oracle,
  and no other result is.
* A counted `for (int i = 0; i < n; i++)` loop is a recursion on the number of
  iterations left, `n.toNat` at the start.
* The `while` loop of `calculate_synergy_coefficient` takes a fuel argument:
  `none` means the loop has not finished within that many iterations.  With
  fuel above the length of the text it always finishes for the engine's
  vocabulary (`countAll_eq`) and agrees with the fuel-free `countLoopTotal`
  (`countLoopTotal_eq`); for an empty needle it never does
  (`countLoop_empty_needle`).
-/

namespace Enterprise.Synergy


/-! ## IEEE-754 binary64 arithmetic on rationals -/

/-- Nearest integer to `x`, ties to the even neighbour. -/
def roundHalfEven (x : ℚ) : ℤ :=
  let f := ⌊x⌋
  if x - f < 1 / 2 then f
  else if 1 / 2 < x - f then f + 1
  else if f % 2 = 0 then f else f + 1

/-- Binary64 rounding of a positive rational: with `2^e ≤ x < 2^(e+1)` the
significand `x / 2^(e-52)` is rounded to an integer (53 significant bits). -/
def rndPos (x : ℚ) : ℚ :=
  let e := Int.log 2 x
  (roundHalfEven (x * (2 : ℚ) ^ (52 - e)) : ℚ) * (2 : ℚ) ^ (e - 52)

/-- Binary64 rounding (round to nearest, ties to even) of a rational. -/
def rnd (x : ℚ) : ℚ :=
  if x = 0 then 0 else if 0 < x then rndPos x else -rndPos (-x)

/-- Double division `a / b`. -/
def fdiv (a b : ℚ) : ℚ := rnd (a / b)

/-- Double multiplication `a * b`. -/
def fmul (a b : ℚ) : ℚ := rnd (a * b)

/-- Truncation of a rational toward zero. -/
def truncToInt (x : ℚ) : ℤ := if 0 ≤ x then ⌊x⌋ else ⌈x⌉

/-! ## The 32-bit `int` and the non-finite doubles -/

/-- The smallest `int`, `-2^31`. -/
def INT_MIN : ℤ := -2147483648

/-- The largest `int`, `2^31 - 1`. -/
def INT_MAX : ℤ := 2147483647

/-- Conversion of a 64-bit integer to `int`: the value modulo `2^32` that lies
in `[-2^31, 2^31)` (the conversion C++20 prescribes, and the one two's-complement
compilers performed before it). -/
def narrowToInt (n : ℤ) : ℤ := (n + 2147483648) % 4294967296 - 2147483648

/-- A `double`: a finite value (the rational it denotes; the two zeros are not
told apart, no operation of the engine distinguishes them), an infinity with
its sign, or a NaN. -/
inductive Double where
  | finite (value : ℚ)
  | infinite (negative : Bool)
  | nan

/-- The expression `static_cast<double>(a) / b` for two `int` operands.  Both
operands convert exactly.  A zero divisor converts to `+0.0`: a non-zero
dividend then gives the infinity of its sign, and `0 / 0` gives a NaN. -/
def Double.divInt (a b : ℤ) : Double :=
  if b = 0 then (if a = 0 then Double.nan else Double.infinite (decide (a < 0)))
  else Double.finite (fdiv (a : ℚ) (b : ℚ))

/-- Double multiplication `x * c` by a finite double `c`. -/
def Double.mul (x : Double) (c : ℚ) : Double :=
  match x with
  | Double.finite v => Double.finite (fmul v c)
  | Double.infinite s => if c = 0 then Double.nan else Double.infinite (xor s (decide (c < 0)))
  | Double.nan => Double.nan

/-- The comparison `x > c` with a finite double `c`; false for a NaN. -/
def Double.gt (x : Double) (c : ℚ) : Bool :=
  match x with
  | Double.finite v => decide (c < v)
  | Double.infinite s => !s
  | Double.nan => false

/-- The comparison `x < c` with a finite double `c`; false for a NaN. -/
def Double.lt (x : Double) (c : ℚ) : Bool :=
  match x with
  | Double.finite v => decide (v < c)
  | Double.infinite s => s
  | Double.nan => false

/-- The conversion `static_cast<int>(x)`.  A finite value is truncated toward
zero.  When the truncated value does not fit an `int`, or `x` is an infinity or
a NaN, C++ leaves the conversion undefined; the x86-64 instruction that
performs it (`cvttsd2si`) returns `INT_MIN`, and that is the value taken here. -/
def Double.toInt (x : Double) : ℤ :=
  match x with
  | Double.finite v =>
    if INT_MIN ≤ truncToInt v ∧ truncToInt v ≤ INT_MAX then truncToInt v else INT_MIN
  | Double.infinite _ => INT_MIN
  | Double.nan => INT_MIN

/-! ## `std::string` operations -/

/-- Search of `needle` in `t`, the suffix of the text that starts at index
`idx`: the index of the first match at or after `idx`. -/
def findIn (needle : List Char) : List Char → Nat → Option Nat
  | [], idx => if needle.isPrefixOf [] then some idx else none
  | c :: t, idx =>
    if needle.isPrefixOf (c :: t) then some idx else findIn needle t (idx + 1)

/-- The call `text.find(needle, pos)`; `none` is `std::string::npos`. -/
def find (text needle : List Char) (pos : Nat) : Option Nat :=
  if text.length < pos then none else findIn needle (text.drop pos) pos

/-- The call `text.insert(pos, s)` (for `pos ≤ text.size()`). -/
def insert (text : List Char) (pos : Nat) (s : List Char) : List Char :=
  text.take pos ++ s ++ text.drop pos

/-- The initialiser `int word_count = std::count(text.begin(), text.end(), ' ') + 1`:
the count and the sum are 64-bit (`ptrdiff_t`), the initialisation narrows to
`int`. -/
def word_count (text : List Char) : ℤ := narrowToInt ((text.count ' ' : ℤ) + 1)

/-! ## Engine state -/

/-- The data members of `BuzzwordComplianceEngine`; `rng` and `cursor` stand for
the `std::mt19937` member. -/
structure Engine where
  buzzwords : List (List Char)
  action_verbs : List (List Char)
  corporate_nouns : List (List Char)
  synergy_level : ℤ
  disruption_coefficient : ℚ
  rng : Nat → Nat
  cursor : Nat

/-- Member constant `MINIMUM_BUZZWORDS_PER_SENTENCE`. -/
def MINIMUM_BUZZWORDS_PER_SENTENCE : ℤ := 3

/-- Member constant `MAXIMUM_COHERENCE_ALLOWED` (percent). -/
def MAXIMUM_COHERENCE_ALLOWED : ℤ := 20

/-- Member constant `OPTIMAL_MEANINGLESSNESS`: the double nearest to 0.95. -/
def OPTIMAL_MEANINGLESSNESS : ℚ := rnd (95 / 100)

/-- The list assigned to `buzzwords` by `initialize_buzzword_database`. -/
def buzzwordCatalogue : List (List Char) :=
  ["synergy", "leverage", "paradigm", "disrupt", "innovate",
   "monetize", "optimize", "strategize", "actualize", "incentivize",
   "circle back", "touch base", "deep dive", "bandwidth", "runway",
   "low-hanging fruit", "move the needle", "boil the ocean",
   "drinking from the firehose", "bleeding edge", "best-of-breed",
   "core competency", "value-add", "game-changer", "win-win",
   "thought leadership", "business intelligence", "actionable insights"].map String.toList

/-- The list assigned to `action_verbs` by `initialize_buzzword_database`. -/
def verbCatalogue : List (List Char) :=
  ["leverage", "utilize", "facilitate", "streamline", "maximize",
   "optimize", "revolutionize", "transform", "empower", "enable",
   "orchestrate", "synthesize", "aggregate", "architect", "envision"].map String.toList

/-- The list assigned to `corporate_nouns` by `initialize_buzzword_database`. -/
def nounCatalogue : List (List Char) :=
  ["deliverables", "stakeholders", "bandwidth", "mindshare",
   "paradigm", "ecosystem", "value proposition", "synergies",
   "core competencies", "best practices", "action items",
   "key performance indicators", "return on investment",
   "total cost of ownership", "strategic initiatives"].map String.toList

/-- Method `initialize_buzzword_database`: assigns the three word lists. -/
def initialize_buzzword_database (st : Engine) : Engine :=
  { st with buzzwords := buzzwordCatalogue,
            action_verbs := verbCatalogue,
            corporate_nouns := nounCatalogue }

/-- The constructor: `synergy_level(0)`, `disruption_coefficient(1.0)`, the word
lists, and a generator seeded from the clock (an arbitrary oracle `rng`). -/
def construct (rng : Nat → Nat) : Engine :=
  initialize_buzzword_database
    { buzzwords := [], action_verbs := [], corporate_nouns := [],
      synergy_level := 0, disruption_coefficient := 1, rng := rng, cursor := 0 }

/-- One call `dist(rng)` of a `std::uniform_int_distribution<int>(0, hi)`. -/
def uniform_int (hi : Nat) (st : Engine) : Nat × Engine :=
  (st.rng st.cursor % (hi + 1), { st with cursor := st.cursor + 1 })

/-- The expression `words[dist(rng)]` with `dist(0, words.size() - 1)`.  The
three word lists are never empty after construction; for an empty list the C++
is undefined and the model yields the empty string. -/
def pick (words : List (List Char)) (st : Engine) : List Char × Engine :=
  let d := uniform_int (words.length - 1) st
  (words.getD d.1 [], d.2)

/-! ## Operations -/

/-- Private method `generate_single_sentence`. -/
def generate_single_sentence (st : Engine) : List Char × Engine :=
  let sentence := "We need to ".toList
  let v1 := pick st.action_verbs st
  let sentence := sentence ++ (v1.1 ++ " our ".toList)
  let n1 := pick st.corporate_nouns v1.2
  let sentence := sentence ++ (n1.1 ++ " to ".toList)
  let v2 := pick st.action_verbs n1.2
  let sentence := sentence ++ (v2.1 ++ " ".toList)
  let b := pick st.buzzwords v2.2
  let sentence := sentence ++ (b.1 ++ " and ".toList)
  let v3 := pick st.action_verbs b.2
  let sentence := sentence ++ (v3.1 ++ " ".toList)
  let n2 := pick st.corporate_nouns v3.2
  let sentence := sentence ++ (n2.1 ++ ".".toList)
  (sentence, n2.2)

/-- The `for` loop of `generate_enterprise_speak`, by the number of iterations
left (`sentence_count - i`). -/
def speakLoop : Nat → List Char → Engine → List Char × Engine
  | 0, result, st => (result, st)
  | k + 1, result, st =>
    let s := generate_single_sentence st
    speakLoop k (result ++ s.1 ++ " ".toList) s.2

/-- Method `generate_enterprise_speak`. -/
def generate_enterprise_speak (st : Engine) (sentence_count : ℤ) : List Char × Engine :=
  speakLoop sentence_count.toNat [] st

/-- Private method `calculate_required_buzzwords`. -/
def calculate_required_buzzwords (st : Engine) (text : List Char) : ℤ :=
  let word_count := word_count text
  let current_buzzwords : ℤ :=
    st.buzzwords.foldl
      (fun current buzzword => if (find text buzzword 0).isSome then current + 1 else current) 0
  let required := Int.tdiv word_count 5 - current_buzzwords
  max required MINIMUM_BUZZWORDS_PER_SENTENCE

/-- The `for` loop of `inject_buzzwords`, by the number of iterations left. -/
def injectLoop : Nat → List Char → Engine → List Char × Engine
  | 0, result, st => (result, st)
  | k + 1, result, st =>
    let b := pick st.buzzwords st
    match find result " ".toList 0 with
    | some pos => injectLoop k (insert result (pos + 1) (b.1 ++ " ".toList)) b.2
    | none => injectLoop k result b.2

/-- Method `inject_buzzwords`. -/
def inject_buzzwords (st : Engine) (input : List Char) : List Char × Engine :=
  injectLoop (calculate_required_buzzwords st input).toNat input st

/-- The `while` loop of `calculate_synergy_coefficient` for one buzzword, from
the loop state `(pos, buzzword_count)`. -/
def countLoop (text buzzword : List Char) : Nat → Nat → ℤ → Option ℤ
  | 0, _, _ => none
  | fuel + 1, pos, buzzword_count =>
    match find text buzzword pos with
    | some p => countLoop text buzzword fuel (p + buzzword.length) (buzzword_count + 1)
    | none => some buzzword_count

/-- The outer `for` loop of `calculate_synergy_coefficient` over the buzzwords
still to be scanned. -/
def countAll (fuel : Nat) (text : List Char) : List (List Char) → ℤ → Option ℤ
  | [], buzzword_count => some buzzword_count
  | buzzword :: rest, buzzword_count =>
    match countLoop text buzzword fuel 0 buzzword_count with
    | some c => countAll fuel text rest c
    | none => none

/-- Method `calculate_synergy_coefficient`. -/
def calculate_synergy_coefficient (fuel : Nat) (st : Engine) (text : List Char) :
    Option (Double × Engine) :=
  let word_count := word_count text
  match countAll fuel text st.buzzwords 0 with
  | none => none
  | some buzzword_count =>
    let ratio := Double.divInt buzzword_count word_count
    let st1 := { st with synergy_level := (ratio.mul 1000).toInt }
    some ((ratio.mul st1.disruption_coefficient).mul OPTIMAL_MEANINGLESSNESS, st1)

/-- Method `generate_urgent_subject`. -/
def generate_urgent_subject (st : Engine) : List Char × Engine :=
  let verb := pick st.action_verbs st
  let noun := pick st.corporate_nouns verb.2
  ("URGENT: Need to ".toList ++ verb.1 ++ " ".toList ++ noun.1 ++ " by EOD".toList, noun.2)

/-- Method `obfuscate_bad_news`; the argument is never read. -/
def obfuscate_bad_news (st : Engine) (_bad_news : List Char) : List Char × Engine :=
  let result := "We're strategically ".toList
  let v1 := pick st.action_verbs st
  let result := result ++ (v1.1 ++ "ing our ".toList)
  let n1 := pick st.corporate_nouns v1.2
  let result := result ++ (n1.1 ++ " to ".toList)
  let v2 := pick st.action_verbs n1.2
  let result := result ++ (v2.1 ++ " ".toList)
  let n2 := pick st.corporate_nouns v2.2
  let result := result ++ (n2.1 ++ " and ".toList)
  let v3 := pick st.action_verbs n2.2
  let result := result ++ (v3.1 ++ " ".toList)
  let b := pick st.buzzwords v3.2
  let result := result ++ (b.1 ++ " across ".toList)
  let n3 := pick st.corporate_nouns b.2
  let result := result ++ (n3.1 ++ " going forward.".toList)
  (result, n3.2)

/-- Method `meets_compliance_standards`. -/
def meets_compliance_standards (fuel : Nat) (st : Engine) (text : List Char) :
    Option (Bool × Engine) :=
  match calculate_synergy_coefficient fuel st text with
  | none => none
  | some (synergy, st1) =>
    let word_count := word_count text
    let has_enough_buzzwords : Bool := synergy.gt (rnd (25 / 100))
    let sufficiently_vague : Bool := decide (50 < word_count) && synergy.lt (rnd (8 / 10))
    let properly_meaningless : Bool := (synergy.mul 100).gt (MAXIMUM_COHERENCE_ALLOWED : ℚ)
    some (has_enough_buzzwords && sufficiently_vague && properly_meaningless, st1)

/-! ## Specification-side definitions -/

/-- The word count of the specification: the number of space characters plus
one.  The engine's `word_count` is this number narrowed to `int`. -/
def wordCount (text : List Char) : ℤ := (text.count ' ' : ℤ) + 1

/-- Occurrences of `needle` met by scanning `t` from left to right, resuming
just past the end of each match.  An empty needle is never counted. -/
def scanOccurrences (needle : List Char) (t : List Char) : Nat :=
  match t with
  | [] => 0
  | c :: t' =>
    if needle ≠ [] ∧ needle.isPrefixOf (c :: t') = true then
      scanOccurrences needle ((c :: t').drop needle.length) + 1
    else scanOccurrences needle t'
termination_by t.length
decreasing_by
  all_goals simp_wf
  · rename_i h
    have : 0 < needle.length := List.length_pos.mpr h.1
    omega

/-- Brute-force count: every index of the text is tested in turn, and a match
is counted unless it starts inside the previously counted match (`skip` is the
number of characters of that match still ahead). -/
def bruteForceCount (needle : List Char) : Nat → List Char → Nat
  | _, [] => 0
  | skip + 1, _ :: t => bruteForceCount needle skip t
  | 0, c :: t =>
    if needle.isPrefixOf (c :: t) then bruteForceCount needle (needle.length - 1) t + 1
    else bruteForceCount needle 0 t

/-- Total number of buzzword hits of a text, by scanning. -/
def buzzwordHits (vocabulary : List (List Char)) (text : List Char) : Nat :=
  (vocabulary.map (fun b => scanOccurrences b text)).sum

/-- Number of vocabulary entries that occur at least once as a substring. -/
def alreadyPresent (vocabulary : List (List Char)) (text : List Char) : Nat :=
  vocabulary.countP (fun b => decide (b <:+: text))

/-- The class invariant established by the constructor. -/
def Inv (st : Engine) : Prop :=
  st.buzzwords = buzzwordCatalogue ∧ st.action_verbs = verbCatalogue ∧
  st.corporate_nouns = nounCatalogue ∧ st.disruption_coefficient = 1

/-- The buzzword selected by the `i`-th draw made from state `st` on. -/
def drawnBuzzword (st : Engine) (i : Nat) : List Char :=
  st.buzzwords.getD (st.rng (st.cursor + i) % (st.buzzwords.length - 1 + 1)) []

/-- The text `b_k ++ " " ++ ... ++ b_2 ++ " " ++ b_1 ++ " "` for the first `k`
drawn words `b_1 = d 0, ..., b_k = d (k - 1)`: the latest draw comes first. -/
def insertedBlock (d : Nat → List Char) : Nat → List Char
  | 0 => []
  | k + 1 => d k ++ " ".toList ++ insertedBlock d k

/-- The verb selected by the `i`-th draw made from state `st` on. -/
def drawnVerb (st : Engine) (i : Nat) : List Char :=
  st.action_verbs.getD (st.rng (st.cursor + i) % (st.action_verbs.length - 1 + 1)) []

/-- The noun selected by the `i`-th draw made from state `st` on. -/
def drawnNoun (st : Engine) (i : Nat) : List Char :=
  st.corporate_nouns.getD (st.rng (st.cursor + i) % (st.corporate_nouns.length - 1 + 1)) []

/-- The sentence template filled from the six consecutive draws number
`off, ..., off + 5` (verb, noun, verb, buzzword, verb, noun), with its period
and the separating space. -/
def sentenceBlock (st : Engine) (off : Nat) : List Char :=
  "We need to ".toList ++ drawnVerb st off ++ " our ".toList ++ drawnNoun st (off + 1)
    ++ " to ".toList ++ drawnVerb st (off + 2) ++ " ".toList ++ drawnBuzzword st (off + 3)
    ++ " and ".toList ++ drawnVerb st (off + 4) ++ " ".toList ++ drawnNoun st (off + 5)
    ++ ".".toList ++ " ".toList

/-- Every period of `r` is immediately followed by exactly one space. -/
def PeriodsThenSingleSpace (r : List Char) : Prop :=
  ∀ pre post, r = pre ++ '.' :: post → ∃ rest, post = ' ' :: rest ∧ rest.head? ≠ some ' '

/-- Total number of buzzword hits of a text, by brute-force counting. -/
def bruteForceHits (vocabulary : List (List Char)) (text : List Char) : Nat :=
  (vocabulary.map (fun b => bruteForceCount b 0 text)).sum

/-- `Packs v n t`: the text `t` holds `n` pairwise non-overlapping occurrences of
`v`, read from left to right: either a character is passed over, or an occurrence
of `v` at the front is taken and the reading continues behind it. -/
inductive Packs (v : List Char) : Nat → List Char → Prop
  | zero (t : List Char) : Packs v 0 t
  | skip (c : Char) (t : List Char) (n : Nat) : Packs v n t → Packs v n (c :: t)
  | take (t : List Char) (n : Nat) : v <+: t → Packs v n (t.drop v.length) → Packs v (n + 1) t

/-- A sequence of calls on a constructed engine: the six operations of the
interface, and `initialize_buzzword_database`, which the class leaves public. -/
inductive Reachable : Engine → Prop
  | construct (rng : Nat → Nat) : Reachable (construct rng)
  | reinit (st : Engine) : Reachable st → Reachable (initialize_buzzword_database st)
  | speak (st : Engine) (sentence_count : ℤ) :
      Reachable st → Reachable (generate_enterprise_speak st sentence_count).2
  | inject (st : Engine) (input : List Char) :
      Reachable st → Reachable (inject_buzzwords st input).2
  | score (fuel : Nat) (st : Engine) (text : List Char) (r : Double × Engine) :
      Reachable st → calculate_synergy_coefficient fuel st text = some r → Reachable r.2
  | urgent (st : Engine) : Reachable st → Reachable (generate_urgent_subject st).2
  | obfuscate (st : Engine) (bad_news : List Char) :
      Reachable st → Reachable (obfuscate_bad_news st bad_news).2
  | meets (fuel : Nat) (st : Engine) (text : List Char) (r : Bool × Engine) :
      Reachable st → meets_compliance_standards fuel st text = some r → Reachable r.2

/-- The vocabulary list as the specification prints it (section 6). -/
def specVocabulary : List (List Char) :=
  ["synergy", "leverage", "paradigm", "disrupt", "innovate", "monetize", "optimize",
   "strategize", "actualize", "incentivize", "circle back", "touch base", "deep dive",
   "bandwidth", "runway", "low-hanging fruit", "move the needle", "boil the ocean",
   "drinking from the firehose", "bleeding edge", "best-of-breed", "core competency",
   "value-add", "game-changer", "win-win", "thought leadership", "business intelligence",
   "actionable insights"].map String.toList

/-- The `actionVerbs` list as the specification prints it (section 6). -/
def specActionVerbs : List (List Char) :=
  ["leverage", "utilize", "facilitate", "streamline", "maximize", "optimize",
   "revolutionize", "transform", "empower", "enable", "orchestrate", "synthesize",
   "aggregate", "architect", "envision"].map String.toList

/-- The `conceptNouns` list as the specification prints it (section 6). -/
def specConceptNouns : List (List Char) :=
  ["deliverables", "stakeholders", "bandwidth", "mindshare", "paradigm", "ecosystem",
   "value proposition", "synergies", "core competencies", "best practices", "action items",
   "key performance indicators", "return on investment", "total cost of ownership",
   "strategic initiatives"].map String.toList

end Enterprise.Synergy

/-! ## `CoverSheetValidator`

Source: `src/main/cpp/performance/CoverSheetValidator.cpp`
(class `TPSReports::Compliance::CoverSheetValidator`).  Output to `std::cout`
is not modelled. -/

namespace TPSReports.Compliance

/-- Class constant `FLAIR_MINIMUM`. -/
def FLAIR_MINIMUM : ℤ := 15

/-- The nested struct `CoverSheet`. -/
structure CoverSheet where
  report_number : List Char
  employee_name : List Char
  department : List Char
  has_signature : Bool
  has_date : Bool
  has_proper_formatting : Bool
  flair_count : ℤ

/-- The vector `violations` of `validate` once all six checks have run. -/
def validateViolations (sheet : CoverSheet) : List String :=
  let violations : List String := []
  let violations :=
    if sheet.report_number.isEmpty then violations ++ ["Missing report number"] else violations
  let violations :=
    if sheet.employee_name.isEmpty then violations ++ ["Missing employee name"] else violations
  let violations :=
    if !sheet.has_signature then violations ++ ["Missing signature - Did you get the memo?"]
    else violations
  let violations :=
    if !sheet.has_date then violations ++ ["Missing date"] else violations
  let violations :=
    if !sheet.has_proper_formatting then
      violations ++ ["Improper formatting - See Appendix Q, subsection 7"]
    else violations
  let violations :=
    if sheet.flair_count < FLAIR_MINIMUM then
      violations ++ ["Insufficient flair. Brian over there has "
        ++ toString (FLAIR_MINIMUM + 22) ++ " pieces. "
        ++ "You do want to express yourself, don't you?"]
    else violations
  violations

/-- Method `validate`: `false` as soon as the list of violations is not empty. -/
def validate (sheet : CoverSheet) : Bool :=
  if !(validateViolations sheet).isEmpty then false else true

end TPSReports.Compliance

namespace Enterprise.Synergy

/-- The `while` loop of `calculate_synergy_coefficient` for one buzzword,
recording the position of every match it counts instead of their number. -/
def matchLoop (text buzzword : List Char) : Nat → Nat → Option (List Nat)
  | 0, _ => none
  | fuel + 1, pos =>
    match find text buzzword pos with
    | some p => (matchLoop text buzzword fuel (p + buzzword.length)).map (fun ps => p :: ps)
    | none => some []

/-- `S` is a set of pairwise non-overlapping occurrences of `v` in `text`, each
given by its start offset. -/
def IsOccurrenceSet (text v : List Char) (S : Finset Nat) : Prop :=
  (∀ s ∈ S, v <+: text.drop s) ∧
    ∀ s ∈ S, ∀ s' ∈ S, s ≠ s' → s + v.length ≤ s' ∨ s' + v.length ≤ s

/-- The `while` loop of `calculate_synergy_coefficient` for a non-empty buzzword
as a total function, by well-founded recursion on the distance from `pos` to
the end of the text: every match moves `pos` strictly forward. -/
def countLoopTotal (text buzzword : List Char) (hne : buzzword ≠ []) (pos : Nat)
    (buzzword_count : ℤ) : ℤ :=
  match h : find text buzzword pos with
  | some p => countLoopTotal text buzzword hne (p + buzzword.length) (buzzword_count + 1)
  | none => buzzword_count
termination_by text.length + 1 - pos
decreasing_by
  have key : ∀ (t : List Char) (idx r : Nat), findIn buzzword t idx = some r → idx ≤ r := by
    intro t
    induction t with
    | nil =>
      intro idx r hr
      rw [findIn] at hr
      split at hr
      · simp only [Option.some.injEq] at hr; omega
      · simp at hr
    | cons c t ih =>
      intro idx r hr
      rw [findIn] at hr
      split at hr
      · simp only [Option.some.injEq] at hr; omega
      · have := ih (idx + 1) r hr; omega
  have hlen : 0 < buzzword.length := List.length_pos.mpr hne
  unfold find at h
  split at h
  · simp at h
  · have := key _ _ _ h
    omega



/-! # Theorems -/

/-! ## Scanning and brute-force counting -/

theorem scanOccurrences_nil (needle : List Char) : scanOccurrences needle [] = 0 := by
  rw [scanOccurrences]

theorem scanOccurrences_cons_match (needle : List Char) (c : Char) (t : List Char)
    (hne : needle ≠ []) (hp : needle <+: c :: t) :
    scanOccurrences needle (c :: t) = scanOccurrences needle ((c :: t).drop needle.length) + 1 := by
  rw [scanOccurrences]
  have : needle.isPrefixOf (c :: t) = true := List.isPrefixOf_iff_prefix.mpr hp
  simp [hne, this]

theorem scanOccurrences_cons_skip (needle : List Char) (c : Char) (t : List Char)
    (hp : ¬ needle <+: c :: t) :
    scanOccurrences needle (c :: t) = scanOccurrences needle t := by
  rw [scanOccurrences]
  have : ¬ needle.isPrefixOf (c :: t) = true := fun h => hp (List.isPrefixOf_iff_prefix.mp h)
  simp [this]

theorem scanOccurrences_empty_needle (t : List Char) : scanOccurrences [] t = 0 := by
  induction t with
  | nil => exact scanOccurrences_nil _
  | cons c t ih => rw [scanOccurrences]; simpa using ih

/-! ## `find` and the counting loops -/

theorem findIn_eq_none_iff (needle t : List Char) (idx : Nat) :
    findIn needle t idx = none ↔ ¬ needle <:+: t := by
  induction t generalizing idx with
  | nil =>
    cases needle with
    | nil => simp [findIn]
    | cons a l => simp [findIn, List.isPrefixOf]
  | cons c t ih =>
    rw [findIn, List.infix_cons_iff]
    by_cases hp : needle.isPrefixOf (c :: t) = true
    · simp [hp, List.isPrefixOf_iff_prefix.mp hp]
    · have hp' : ¬ needle <+: c :: t := fun h => hp (List.isPrefixOf_iff_prefix.mpr h)
      simp [hp, hp', ih]

theorem find_zero (text needle : List Char) : find text needle 0 = findIn needle text 0 := by
  simp [find]

theorem find_zero_isSome_iff (text needle : List Char) :
    (find text needle 0).isSome = true ↔ needle <:+: text := by
  rw [find_zero, ← not_iff_not, ← findIn_eq_none_iff needle text 0]
  cases findIn needle text 0 <;> simp

theorem findIn_none_scan (needle t : List Char) (idx : Nat)
    (h : findIn needle t idx = none) : scanOccurrences needle t = 0 := by
  induction t generalizing idx with
  | nil => exact scanOccurrences_nil _
  | cons c t ih =>
    rw [findIn] at h
    by_cases hp : needle.isPrefixOf (c :: t) = true
    · simp [hp] at h
    · simp only [hp] at h
      rw [scanOccurrences_cons_skip _ _ _ (fun hq => hp (List.isPrefixOf_iff_prefix.mpr hq))]
      exact ih (idx + 1) h

theorem findIn_some_scan (needle t : List Char) (idx r : Nat) (hne : needle ≠ [])
    (h : findIn needle t idx = some r) :
    idx ≤ r ∧ r - idx + needle.length ≤ t.length ∧
      scanOccurrences needle t
        = scanOccurrences needle (t.drop (r - idx + needle.length)) + 1 := by
  induction t generalizing idx with
  | nil =>
    cases needle with
    | nil => exact absurd rfl hne
    | cons a l => simp [findIn, List.isPrefixOf] at h
  | cons c t ih =>
    rw [findIn] at h
    by_cases hp : needle.isPrefixOf (c :: t) = true
    · simp only [hp, if_true, Option.some.injEq] at h
      subst h
      have hpre := List.isPrefixOf_iff_prefix.mp hp
      refine ⟨le_refl _, ?_, ?_⟩
      · simpa using hpre.length_le
      · rw [scanOccurrences_cons_match _ _ _ hne hpre]; simp
    · simp only [hp] at h
      obtain ⟨h1, h2, h3⟩ := ih (idx + 1) h
      refine ⟨by omega, by simp only [List.length_cons]; omega, ?_⟩
      rw [scanOccurrences_cons_skip _ _ _ (fun hq => hp (List.isPrefixOf_iff_prefix.mpr hq)), h3]
      have : r - idx + needle.length = (r - (idx + 1) + needle.length) + 1 := by omega
      rw [this, List.drop_succ_cons]

theorem countLoop_eq (text buzzword : List Char) (hne : buzzword ≠ []) :
    ∀ (fuel pos : Nat) (c : ℤ), text.length - pos < fuel →
      countLoop text buzzword fuel pos c
        = some (c + (scanOccurrences buzzword (text.drop pos) : ℤ)) := by
  intro fuel
  induction fuel with
  | zero => intro pos c h; omega
  | succ fuel ih =>
    intro pos c h
    rw [countLoop]
    by_cases hlen : text.length < pos
    · have hd : text.drop pos = [] := List.drop_eq_nil_of_le (by omega)
      simp [find, hlen, hd, scanOccurrences_nil]
    · simp only [find, hlen, if_false]
      cases hf : findIn buzzword (text.drop pos) pos with
      | none => simp [findIn_none_scan _ _ _ hf]
      | some r =>
        obtain ⟨h1, h2, h3⟩ := findIn_some_scan _ _ _ _ hne hf
        have hpos : 0 < buzzword.length := List.length_pos.mpr hne
        rw [List.length_drop] at h2
        simp only
        rw [ih (r + buzzword.length) (c + 1) (by omega), h3, List.drop_drop]
        have : pos + (r - pos + buzzword.length) = r + buzzword.length := by omega
        rw [this]
        congr 1
        push_cast
        ring

theorem countAll_eq (fuel : Nat) (text : List Char) (h : text.length < fuel) :
    ∀ (vocabulary : List (List Char)) (c : ℤ), (∀ b ∈ vocabulary, b ≠ []) →
      countAll fuel text vocabulary c = some (c + (buzzwordHits vocabulary text : ℤ)) := by
  intro vocabulary
  induction vocabulary with
  | nil => intro c _; simp [countAll, buzzwordHits]
  | cons b rest ih =>
    intro c hne
    rw [countAll, countLoop_eq text b (hne b (List.mem_cons_self _ _)) fuel 0 c (by omega)]
    simp only [List.drop_zero]
    rw [ih _ (fun x hx => hne x (List.mem_cons_of_mem _ hx))]
    simp only [buzzwordHits, List.map_cons, List.sum_cons]
    congr 1
    push_cast
    ring

theorem bruteForceCount_eq (needle : List Char) (hne : needle ≠ []) :
    ∀ (t : List Char) (skip : Nat),
      bruteForceCount needle skip t = scanOccurrences needle (t.drop skip) := by
  intro t
  induction t with
  | nil => intro skip; simp [bruteForceCount, scanOccurrences_nil]
  | cons c t ih =>
    intro skip
    cases skip with
    | succ k => simp [bruteForceCount, ih]
    | zero =>
      rw [bruteForceCount, List.drop_zero]
      have hpos : 0 < needle.length := List.length_pos.mpr hne
      by_cases hp : needle.isPrefixOf (c :: t) = true
      · rw [if_pos hp, ih, scanOccurrences_cons_match _ _ _ hne (List.isPrefixOf_iff_prefix.mp hp)]
        have : needle.length = (needle.length - 1) + 1 := by omega
        conv_rhs => rw [this, List.drop_succ_cons]
      · rw [if_neg hp, ih,
          scanOccurrences_cons_skip _ _ _ (fun hq => hp (List.isPrefixOf_iff_prefix.mpr hq))]
        simp

theorem foldl_count_eq (p : List Char → Bool) (l : List (List Char)) (c : ℤ) :
    l.foldl (fun current b => if p b = true then current + 1 else current) c
      = c + (l.countP p : ℤ) := by
  induction l generalizing c with
  | nil => simp
  | cons b l ih =>
    rw [List.foldl_cons, ih]
    by_cases hb : p b = true
    · simp [hb, List.countP_cons_of_pos]; ring
    · simp [hb, List.countP_cons_of_neg]

theorem catalogue_nonempty : ∀ b ∈ buzzwordCatalogue, b ≠ [] := by decide

/-! ## Injection -/

theorem insertedBlock_shift (d : Nat → List Char) (k : Nat) :
    insertedBlock (fun i => d (i + 1)) k ++ (d 0 ++ " ".toList) = insertedBlock d (k + 1) := by
  induction k with
  | zero => simp [insertedBlock]
  | succ k ih =>
    rw [insertedBlock, List.append_assoc, ih]
    simp [insertedBlock]

theorem find_space_none (t : List Char) (h : ' ' ∉ t) : find t " ".toList 0 = none := by
  rw [find_zero, findIn_eq_none_iff]
  rintro ⟨s, u, hsu⟩
  apply h
  rw [← hsu]
  simp

theorem findIn_space (pre post : List Char) (h : ' ' ∉ pre) (idx : Nat) :
    findIn " ".toList (pre ++ ' ' :: post) idx = some (idx + pre.length) := by
  induction pre generalizing idx with
  | nil => simp [findIn, List.isPrefixOf]
  | cons c pre ih =>
    have hc : c ≠ ' ' := fun hc => h (by simp [hc])
    have hpre : ' ' ∉ pre := fun hm => h (List.mem_cons_of_mem _ hm)
    have hc' : (' ' == c) = false := by
      simp only [beq_eq_false_iff_ne, ne_eq]
      exact fun e => hc e.symm
    rw [List.cons_append, findIn]
    simp only [String.toList, List.isPrefixOf, hc', Bool.false_and]
    have := ih hpre (idx + 1)
    simp only [String.toList] at this
    simp only [Bool.false_eq_true, if_false]
    rw [this]
    simp only [List.length_cons]
    congr 1
    omega

theorem find_space (pre post : List Char) (h : ' ' ∉ pre) :
    find (pre ++ ' ' :: post) " ".toList 0 = some pre.length := by
  rw [find_zero, findIn_space pre post h 0]; simp

theorem pick_snd (words : List (List Char)) (st : Engine) :
    (pick words st).2 = { st with cursor := st.cursor + 1 } := rfl

theorem pick_buzzwords_fst (st : Engine) : (pick st.buzzwords st).1 = drawnBuzzword st 0 := rfl

theorem injectLoop_no_space (k : Nat) (result : List Char) (st : Engine) (h : ' ' ∉ result) :
    injectLoop k result st = (result, { st with cursor := st.cursor + k }) := by
  induction k generalizing st with
  | zero => rfl
  | succ k ih =>
    rw [injectLoop, find_space_none result h]
    simp only
    rw [ih, pick_snd]
    simp only [Prod.mk.injEq, true_and]
    congr 1
    omega

theorem injectLoop_space (k : Nat) (pre post : List Char) (st : Engine) (h : ' ' ∉ pre) :
    injectLoop k (pre ++ ' ' :: post) st
      = (pre ++ ' ' :: (insertedBlock (drawnBuzzword st) k ++ post),
         { st with cursor := st.cursor + k }) := by
  induction k generalizing st post with
  | zero => rfl
  | succ k ih =>
    rw [injectLoop, find_space pre post h]
    simp only
    have hins : insert (pre ++ ' ' :: post) (pre.length + 1)
        ((pick st.buzzwords st).1 ++ " ".toList)
          = pre ++ ' ' :: ((drawnBuzzword st 0 ++ " ".toList) ++ post) := by
      rw [pick_buzzwords_fst]
      have e : pre ++ ' ' :: post = (pre ++ [' ']) ++ post := by simp
      have l : (pre ++ [' ']).length = pre.length + 1 := by simp
      rw [insert, e, ← l, List.take_left, List.drop_left]
      simp
    rw [hins, ih, pick_snd]
    have hd : drawnBuzzword { st with cursor := st.cursor + 1 }
        = fun i => drawnBuzzword st (i + 1) := by
      funext i
      simp only [drawnBuzzword]
      have : st.cursor + 1 + i = st.cursor + (i + 1) := by omega
      rw [this]
    rw [hd, ← List.append_assoc, insertedBlock_shift]
    simp only [Prod.mk.injEq, true_and]
    congr 1
    omega

theorem first_space_split (l : List Char) (h : ' ' ∈ l) :
    ∃ pre post, l = pre ++ ' ' :: post ∧ ' ' ∉ pre ∧ l.indexOf ' ' = pre.length := by
  induction l with
  | nil => simp at h
  | cons c l ih =>
    by_cases hc : c = ' '
    · exact ⟨[], l, by simp [hc], by simp, by simp [hc]⟩
    · have hl : ' ' ∈ l := by
        rcases List.mem_cons.mp h with e | e
        · exact absurd e.symm hc
        · exact e
      obtain ⟨pre, post, h1, h2, h3⟩ := ih hl
      refine ⟨c :: pre, post, by simp [h1], ?_, ?_⟩
      · simp only [List.mem_cons, not_or]
        exact ⟨fun e => hc e.symm, h2⟩
      · rw [List.indexOf_cons_ne _ hc, h3]; simp

theorem narrowToInt_of_range (n : ℤ) (h1 : -2147483648 ≤ n) (h2 : n < 2147483648) :
    narrowToInt n = n := by
  unfold narrowToInt
  omega

theorem narrowToInt_range (n : ℤ) : INT_MIN ≤ narrowToInt n ∧ narrowToInt n ≤ INT_MAX := by
  unfold narrowToInt INT_MIN INT_MAX
  omega

theorem wordCount_pos (t : List Char) : 0 < wordCount t := by
  unfold wordCount
  have : (0 : ℤ) ≤ (t.count ' ' : ℤ) := Int.natCast_nonneg _
  omega

theorem word_count_eq (text : List Char) (hsize : (text.count ' ' : ℤ) + 1 < 2147483648) :
    word_count text = wordCount text := by
  have h := wordCount_pos text
  unfold word_count
  unfold wordCount at h ⊢
  exact narrowToInt_of_range _ (by omega) hsize

theorem required_code_eq (st : Engine) (text : List Char) :
    calculate_required_buzzwords st text
      = max (Int.tdiv (word_count text) 5 - (alreadyPresent st.buzzwords text : ℤ)) 3 := by
  have hf := foldl_count_eq (fun b => (find text b 0).isSome) st.buzzwords 0
  have hc : st.buzzwords.countP (fun b => (find text b 0).isSome)
      = alreadyPresent st.buzzwords text := by
    unfold alreadyPresent
    apply List.countP_congr
    intro b _
    simp [find_zero_isSome_iff]
  unfold calculate_required_buzzwords MINIMUM_BUZZWORDS_PER_SENTENCE
  simp only
  rw [hf, hc, zero_add]

theorem required_eq (st : Engine) (text : List Char)
    (hsize : (text.count ' ' : ℤ) + 1 < 2147483648) :
    calculate_required_buzzwords st text
      = max (wordCount text / 5 - (alreadyPresent st.buzzwords text : ℤ)) 3 := by
  rw [required_code_eq, word_count_eq text hsize,
    Int.tdiv_eq_ediv (wordCount_pos text).le (by norm_num)]

theorem insertedBlock_count (d : Nat → List Char) (k : Nat) :
    ((insertedBlock d k).count ' ' : ℤ)
      = (k : ℤ) + ∑ i ∈ Finset.range k, ((d i).count ' ' : ℤ) := by
  induction k with
  | zero => simp [insertedBlock]
  | succ k ih =>
    rw [insertedBlock, List.count_append, List.count_append, Finset.sum_range_succ]
    push_cast
    rw [ih]
    have : (" ".toList).count ' ' = 1 := by decide
    rw [this]
    push_cast
    ring

theorem required_ge_three (st : Engine) (text : List Char) :
    3 ≤ calculate_required_buzzwords st text := by
  rw [required_code_eq]; exact le_max_right _ _

theorem required_no_space (st : Engine) (text : List Char) (h : ' ' ∉ text) :
    calculate_required_buzzwords st text = 3 := by
  have hc : ((text.count ' ' : ℕ) : ℤ) = 0 := by
    rw [List.count_eq_zero_of_not_mem h]; rfl
  rw [required_eq st text (by rw [hc]; norm_num)]
  have hw : wordCount text = 1 := by
    unfold wordCount
    rw [hc]
    simp
  rw [hw]
  have : (0 : ℤ) ≤ (alreadyPresent st.buzzwords text : ℤ) := Int.natCast_nonneg _
  have h0 : (1 : ℤ) / 5 = 0 := by norm_num
  rw [h0]
  exact max_eq_right (by omega)

theorem inject_buzzwords_split (st : Engine) (pre post : List Char) (h : ' ' ∉ pre) :
    inject_buzzwords st (pre ++ ' ' :: post)
      = (pre ++ ' ' :: (insertedBlock (drawnBuzzword st)
            (calculate_required_buzzwords st (pre ++ ' ' :: post)).toNat ++ post),
         { st with cursor := st.cursor
            + (calculate_required_buzzwords st (pre ++ ' ' :: post)).toNat }) := by
  rw [inject_buzzwords, injectLoop_space _ pre post st h]

theorem take_block_drop (pre post block : List Char) :
    (pre ++ ' ' :: post).take (pre.length + 1) ++ block ++ (pre ++ ' ' :: post).drop (pre.length + 1)
      = pre ++ ' ' :: (block ++ post) := by
  have e : pre ++ ' ' :: post = (pre ++ [' ']) ++ post := by simp
  have l : (pre ++ [' ']).length = pre.length + 1 := by simp
  rw [e, ← l, List.take_left, List.drop_left]
  simp

theorem catalogue_nonspace : ∀ b ∈ buzzwordCatalogue, ∃ c ∈ b, c ≠ ' ' := by
  decide

theorem not_infix_replicate (b : List Char) (n : Nat) (c : Char) (h : ∃ x ∈ b, x ≠ c) :
    ¬ b <:+: List.replicate n c := by
  intro hin
  obtain ⟨x, hx, hne⟩ := h
  exact hne (List.eq_of_mem_replicate (hin.subset hx))

theorem alreadyPresent_spaces (n : Nat) :
    alreadyPresent buzzwordCatalogue (List.replicate n ' ') = 0 := by
  unfold alreadyPresent
  rw [List.countP_eq_zero]
  intro b hb
  simp [not_infix_replicate b n ' ' (catalogue_nonspace b hb)]

theorem word_count_spaces :
    word_count (List.replicate 2147483647 ' ') = -2147483648
      ∧ wordCount (List.replicate 2147483647 ' ') = 2147483648 := by
  unfold word_count wordCount
  rw [List.count_replicate_self]
  constructor
  · unfold narrowToInt; norm_num
  · norm_num

theorem required_spaces (st : Engine) (hb : st.buzzwords = buzzwordCatalogue) :
    calculate_required_buzzwords st (List.replicate 2147483647 ' ') = 3
      ∧ max (wordCount (List.replicate 2147483647 ' ') / 5
          - (alreadyPresent st.buzzwords (List.replicate 2147483647 ' ') : ℤ)) 3
        = 429496729 := by
  rw [required_code_eq, hb, alreadyPresent_spaces, word_count_spaces.1, word_count_spaces.2]
  constructor
  · decide
  · norm_num

/-- C5 as stated fails: for the text of `2^31 - 1` spaces the `int word_count` is
`INT_MIN`, the quotient by 5 is negative and the count returned is 3, while
`max(floor(wordCount / 5) - alreadyPresent, 3)` with `wordCount = 2^31` is
429496729. -/
theorem calculate_required_buzzwords_counterexample :
    calculate_required_buzzwords (construct (fun _ => 0)) (List.replicate 2147483647 ' ') = 3
      ∧ max ((((List.replicate 2147483647 ' ').count ' ' : ℤ) + 1) / 5
            - ((construct (fun _ => 0)).buzzwords.countP
                (fun b => decide (b <:+: List.replicate 2147483647 ' ')) : ℤ)) 3
          = 429496729 :=
  required_spaces (construct (fun _ => 0)) rfl

/-- C5 (amended): for every text with fewer than `2^31 - 1` spaces the
required-insertion count is `max(floor(wordCount / 5) - alreadyPresent, 3)` with
`wordCount` the number of spaces plus one and `alreadyPresent` the number of
vocabulary entries occurring as a substring.  For every text, of any size, the
count is `max(word_count / 5 - alreadyPresent, 3)` with `word_count` the number
`wordCount` narrowed to `int` and the quotient truncated toward zero; it is at
least 3, hence never negative. -/
theorem calculate_required_buzzwords_spec (st : Engine) (text : List Char) :
    ((text.count ' ' : ℤ) + 1 < 2147483648 →
        calculate_required_buzzwords st text
          = max (((text.count ' ' : ℤ) + 1) / 5
              - (st.buzzwords.countP (fun b => decide (b <:+: text)) : ℤ)) 3)
      ∧ calculate_required_buzzwords st text
          = max (Int.tdiv (narrowToInt ((text.count ' ' : ℤ) + 1)) 5
              - (st.buzzwords.countP (fun b => decide (b <:+: text)) : ℤ)) 3
      ∧ MINIMUM_BUZZWORDS_PER_SENTENCE ≤ calculate_required_buzzwords st text
      ∧ 0 ≤ calculate_required_buzzwords st text := by
  have h3 := required_ge_three st text
  refine ⟨fun hsize => required_eq st text hsize, required_code_eq st text, h3, by omega⟩

theorem calculate_required_buzzwords_spec_witness :
    ((("a b c d e f g h i j synergy".toList.count ' ' : ℕ) : ℤ) + 1 < 2147483648)
      ∧ calculate_required_buzzwords (construct (fun _ => 0)) "a b c d e f g h i j synergy".toList
          = max (((("a b c d e f g h i j synergy".toList.count ' ' : ℕ) : ℤ) + 1) / 5
              - ((construct (fun _ => 0)).buzzwords.countP
                  (fun b => decide (b <:+: "a b c d e f g h i j synergy".toList)) : ℤ)) 3 :=
  ⟨by decide,
    (calculate_required_buzzwords_spec (construct (fun _ => 0))
      "a b c d e f g h i j synergy".toList).1 (by decide)⟩

theorem inject_buzzwords_unchanged (st : Engine) (input : List Char) (h : ' ' ∉ input) :
    inject_buzzwords st input = (input, { st with cursor := st.cursor + 3 }) := by
  rw [inject_buzzwords, required_no_space st input h]
  exact injectLoop_no_space 3 input st h

/-- C6: for an input without a space character `inject_buzzwords` returns the
input unchanged and consumes exactly three draws (one per required insertion);
nothing else of the engine state changes. -/
theorem inject_buzzwords_no_space (st : Engine) (input : List Char) (h : ' ' ∉ input) :
    calculate_required_buzzwords st input = 3 ∧
      inject_buzzwords st input = (input, { st with cursor := st.cursor + 3 }) := by
  exact ⟨required_no_space st input h, inject_buzzwords_unchanged st input h⟩

theorem inject_buzzwords_no_space_witness :
    ' ' ∉ "hello".toList ∧
      (calculate_required_buzzwords (construct (fun i => i)) "hello".toList = 3 ∧
        inject_buzzwords (construct (fun i => i)) "hello".toList
          = ("hello".toList,
             { construct (fun i => i) with cursor := (construct (fun i => i)).cursor + 3 })) :=
  ⟨by decide, inject_buzzwords_no_space (construct (fun i => i)) "hello".toList (by decide)⟩

/-- C3: for an input with a space, every insertion lands right after the first
space `p`: the result is `input[0..p] ++ b_k ++ " " ++ ... ++ b_1 ++ " " ++ input[p+1..]`
with `k` the required-insertion count and `b_i` the `i`-th drawn buzzword, and
exactly `k` draws are consumed; for "hello world" `k = 3`. -/
theorem inject_buzzwords_first_space (st : Engine) (input : List Char) (h : ' ' ∈ input) :
    inject_buzzwords st input
        = (input.take (input.indexOf ' ' + 1)
            ++ insertedBlock (drawnBuzzword st) (calculate_required_buzzwords st input).toNat
            ++ input.drop (input.indexOf ' ' + 1),
           { st with cursor := st.cursor + (calculate_required_buzzwords st input).toNat })
      ∧ (calculate_required_buzzwords st "hello world".toList = 3
          ∧ (inject_buzzwords st "hello world".toList).1
              = "hello ".toList ++ drawnBuzzword st 2 ++ " ".toList ++ drawnBuzzword st 1
                  ++ " ".toList ++ drawnBuzzword st 0 ++ " world".toList) := by
  have key : ∀ (inp : List Char), ' ' ∈ inp → inject_buzzwords st inp
        = (inp.take (inp.indexOf ' ' + 1)
            ++ insertedBlock (drawnBuzzword st) (calculate_required_buzzwords st inp).toNat
            ++ inp.drop (inp.indexOf ' ' + 1),
           { st with cursor := st.cursor + (calculate_required_buzzwords st inp).toNat }) := by
    intro inp hin
    obtain ⟨pre, post, h1, h2, h3⟩ := first_space_split inp hin
    subst h1
    rw [h3, take_block_drop, inject_buzzwords_split st pre post h2]
  have hreq : calculate_required_buzzwords st "hello world".toList = 3 := by
    rw [required_eq _ _ (by decide)]
    have hw : wordCount "hello world".toList = 2 := by decide
    rw [hw]
    have : (0 : ℤ) ≤ (alreadyPresent st.buzzwords "hello world".toList : ℤ) :=
      Int.natCast_nonneg _
    have h0 : (2 : ℤ) / 5 = 0 := by norm_num
    rw [h0]
    exact max_eq_right (by omega)
  refine ⟨key input h, hreq, ?_⟩
  rw [key _ (by decide), hreq]
  have hi : "hello world".toList.indexOf ' ' = 5 := by decide
  rw [hi]
  simp [insertedBlock]

theorem inject_buzzwords_first_space_witness :
    ' ' ∈ "a b".toList ∧
    (inject_buzzwords (construct (fun i => i)) "a b".toList
        = ("a b".toList.take ("a b".toList.indexOf ' ' + 1)
            ++ insertedBlock (drawnBuzzword (construct (fun i => i)))
                (calculate_required_buzzwords (construct (fun i => i)) "a b".toList).toNat
            ++ "a b".toList.drop ("a b".toList.indexOf ' ' + 1),
           { construct (fun i => i) with
              cursor := (construct (fun i => i)).cursor
                + (calculate_required_buzzwords (construct (fun i => i)) "a b".toList).toNat })
      ∧ (calculate_required_buzzwords (construct (fun i => i)) "hello world".toList = 3
          ∧ (inject_buzzwords (construct (fun i => i)) "hello world".toList).1
              = "hello ".toList ++ drawnBuzzword (construct (fun i => i)) 2 ++ " ".toList
                  ++ drawnBuzzword (construct (fun i => i)) 1
                  ++ " ".toList ++ drawnBuzzword (construct (fun i => i)) 0
                  ++ " world".toList)) :=
  ⟨by decide, inject_buzzwords_first_space (construct (fun i => i)) "a b".toList (by decide)⟩

theorem inject_spaces (st : Engine) (hb : st.buzzwords = buzzwordCatalogue) :
    (inject_buzzwords st (List.replicate 2147483647 ' ')).2.cursor = st.cursor + 3 := by
  have e : List.replicate 2147483647 ' ' = [] ++ ' ' :: List.replicate 2147483646 ' ' :=
    List.replicate_succ ' ' 2147483646
  have h := inject_buzzwords_split st [] (List.replicate 2147483646 ' ') (by simp)
  rw [← e, (required_spaces st hb).1] at h
  rw [h]
  rfl

/-- C4 as stated fails.  With every draw selecting "circle back", injecting into
"hello world" (2 words, no buzzword present) gives 8 words, not 2 + 3 = 5.  And
for the text of `2^31 - 1` spaces the `int word_count` is `INT_MIN`, so three
buzzwords are inserted (three draws), not `max(floor(2^31 / 5) - 0, 3)`. -/
theorem inject_buzzwords_wordCount_counterexample :
    ¬ (wordCount (inject_buzzwords (construct (fun _ => 10)) "hello world".toList).1
        = wordCount "hello world".toList
          + max (wordCount "hello world".toList / 5
              - (alreadyPresent buzzwordCatalogue "hello world".toList : ℤ)) 3)
      ∧ calculate_required_buzzwords (construct (fun _ => 10))
          (List.replicate 2147483647 ' ') = 3
      ∧ (inject_buzzwords (construct (fun _ => 10)) (List.replicate 2147483647 ' ')).2.cursor
          = 3
      ∧ max (wordCount (List.replicate 2147483647 ' ') / 5
            - (alreadyPresent buzzwordCatalogue (List.replicate 2147483647 ' ') : ℤ)) 3
          = 429496729 := by
  refine ⟨by decide, (required_spaces (construct (fun _ => 10)) rfl).1, ?_,
    (required_spaces (construct (fun _ => 10)) rfl).2⟩
  rw [inject_spaces (construct (fun _ => 10)) rfl]
  rfl

/-- C4 (amended): with `w` the word count of the text (spaces plus one) and
`k = max(floor(w / 5) - alreadyPresent, 3)`, a text that contains a space and
has `w < 2^31` gets `k` buzzwords inserted, each followed by one space, so the
word count of the result is `w + k` plus the number of spaces inside the drawn
buzzwords (exactly `w + k` when every drawn buzzword is a single word); a text
without a space is returned unchanged and keeps word count `w`. -/
theorem inject_buzzwords_wordCount (st : Engine) (input : List Char) :
    (' ' ∈ input → (input.count ' ' : ℤ) + 1 < 2147483648 →
      (inject_buzzwords st input).1
          = input.take (input.indexOf ' ' + 1)
            ++ insertedBlock (drawnBuzzword st)
                (max (wordCount input / 5 - (alreadyPresent st.buzzwords input : ℤ)) 3).toNat
            ++ input.drop (input.indexOf ' ' + 1)
        ∧ wordCount (inject_buzzwords st input).1
          = wordCount input
            + max (wordCount input / 5 - (alreadyPresent st.buzzwords input : ℤ)) 3
            + ∑ i ∈ Finset.range
                (max (wordCount input / 5 - (alreadyPresent st.buzzwords input : ℤ)) 3).toNat,
                ((drawnBuzzword st i).count ' ' : ℤ)
        ∧ ((∀ i, i < (max (wordCount input / 5
                    - (alreadyPresent st.buzzwords input : ℤ)) 3).toNat →
              ' ' ∉ drawnBuzzword st i) →
            wordCount (inject_buzzwords st input).1
              = wordCount input
                + max (wordCount input / 5 - (alreadyPresent st.buzzwords input : ℤ)) 3))
      ∧ (' ' ∉ input →
          (inject_buzzwords st input).1 = input
            ∧ wordCount (inject_buzzwords st input).1 = wordCount input) := by
  constructor
  · intro h hsize
    obtain ⟨pre, post, h1, h2, h3⟩ := first_space_split input h
    subst h1
    have hk := required_eq st (pre ++ ' ' :: post) hsize
    rw [h3, take_block_drop, inject_buzzwords_split st pre post h2, hk]
    generalize max (wordCount (pre ++ ' ' :: post) / 5
      - (alreadyPresent st.buzzwords (pre ++ ' ' :: post) : ℤ)) 3 = k at *
    have hk3 : (3 : ℤ) ≤ k := by rw [← hk]; exact required_ge_three _ _
    have hwc : wordCount (pre ++ ' ' :: (insertedBlock (drawnBuzzword st) k.toNat ++ post))
        = wordCount (pre ++ ' ' :: post) + k
          + ∑ i ∈ Finset.range k.toNat, ((drawnBuzzword st i).count ' ' : ℤ) := by
      simp only [wordCount, List.count_append, List.count_cons_self, List.count_cons]
      push_cast
      rw [insertedBlock_count, Int.toNat_of_nonneg (by omega)]
      ring
    refine ⟨rfl, hwc, ?_⟩
    intro hsingle
    simp only at hwc ⊢
    rw [hwc, Finset.sum_eq_zero]
    · ring
    · intro i hi
      rw [List.count_eq_zero_of_not_mem (hsingle i (Finset.mem_range.mp hi))]
      rfl
  · intro h
    have := inject_buzzwords_unchanged st input h
    rw [this]
    exact ⟨rfl, rfl⟩

theorem inject_buzzwords_wordCount_witness :
    ' ' ∈ "hello world".toList
      ∧ (("hello world".toList.count ' ' : ℕ) : ℤ) + 1 < 2147483648
      ∧ wordCount (inject_buzzwords (construct (fun _ => 0)) "hello world".toList).1
          = wordCount "hello world".toList
            + max (wordCount "hello world".toList / 5
                - (alreadyPresent (construct (fun _ => 0)).buzzwords
                    "hello world".toList : ℤ)) 3
            + ∑ i ∈ Finset.range
                (max (wordCount "hello world".toList / 5
                  - (alreadyPresent (construct (fun _ => 0)).buzzwords
                      "hello world".toList : ℤ)) 3).toNat,
                ((drawnBuzzword (construct (fun _ => 0)) i).count ' ' : ℤ) :=
  ⟨by decide, by decide,
    ((inject_buzzwords_wordCount (construct (fun _ => 0)) "hello world".toList).1
      (by decide) (by decide)).2.1⟩

/-! ## Speech generation -/

theorem generate_single_sentence_eq (st : Engine) :
    (generate_single_sentence st).1 ++ " ".toList = sentenceBlock st 0 ∧
      (generate_single_sentence st).2 = { st with cursor := st.cursor + 6 } := by
  constructor
  · simp [generate_single_sentence, sentenceBlock, pick, uniform_int, drawnVerb, drawnNoun,
      drawnBuzzword]
  · rfl

theorem sentenceBlock_advance (st : Engine) (k i : Nat) :
    sentenceBlock { st with cursor := st.cursor + k } i = sentenceBlock st (k + i) := by
  simp only [sentenceBlock, drawnVerb, drawnNoun, drawnBuzzword, Nat.add_assoc]

theorem speakLoop_eq (k : Nat) (acc : List Char) (st : Engine) :
    speakLoop k acc st
      = (acc ++ ((List.range k).map (fun i => sentenceBlock st (6 * i))).flatten,
         { st with cursor := st.cursor + 6 * k }) := by
  induction k generalizing acc st with
  | zero => simp [speakLoop]
  | succ k ih =>
    obtain ⟨h1, h2⟩ := generate_single_sentence_eq st
    have hb : (List.range k).map (fun i => sentenceBlock { st with cursor := st.cursor + 6 } (6 * i))
        = (List.range k).map ((fun i => sentenceBlock st (6 * i)) ∘ Nat.succ) := by
      apply List.map_congr_left
      intro i _
      rw [sentenceBlock_advance, Function.comp_apply, Nat.mul_succ, Nat.add_comm]
    have hc : st.cursor + 6 + 6 * k = st.cursor + 6 * (k + 1) := by omega
    rw [speakLoop, List.append_assoc, h1, h2, ih, List.range_succ_eq_map, hb]
    simp only [List.map_cons, List.flatten_cons, List.map_map, List.append_assoc, hc,
      Nat.mul_zero]

theorem getD_mod_mem (words : List (List Char)) (hne : words ≠ []) (x : Nat) :
    words.getD (x % (words.length - 1 + 1)) [] ∈ words := by
  have hpos : 0 < words.length := List.length_pos.mpr hne
  have hl : words.length - 1 + 1 = words.length := by omega
  rw [hl]
  have hlt : x % words.length < words.length := Nat.mod_lt _ hpos
  rw [List.getD_eq_getElem _ _ hlt]
  exact List.getElem_mem _

theorem drawn_mem (st : Engine) (hinv : Inv st) (i : Nat) :
    drawnVerb st i ∈ verbCatalogue ∧ drawnNoun st i ∈ nounCatalogue ∧
      drawnBuzzword st i ∈ buzzwordCatalogue := by
  obtain ⟨hb, hv, hn, _⟩ := hinv
  refine ⟨?_, ?_, ?_⟩
  · unfold drawnVerb; rw [hv]; exact getD_mod_mem _ (by decide) _
  · unfold drawnNoun; rw [hn]; exact getD_mod_mem _ (by decide) _
  · unfold drawnBuzzword; rw [hb]; exact getD_mod_mem _ (by decide) _

theorem catalogue_no_period :
    (∀ w ∈ verbCatalogue, '.' ∉ w) ∧ (∀ w ∈ nounCatalogue, '.' ∉ w) ∧
      (∀ w ∈ buzzwordCatalogue, '.' ∉ w) := by decide

theorem sentenceBlock_shape (st : Engine) (hinv : Inv st) (off : Nat) :
    ∃ body, sentenceBlock st off = 'W' :: body ++ ['.', ' '] ∧ '.' ∉ body := by
  obtain ⟨hv, hn, hb⟩ := catalogue_no_period
  have m0 := drawn_mem st hinv off
  have m1 := drawn_mem st hinv (off + 1)
  have m2 := drawn_mem st hinv (off + 2)
  have m3 := drawn_mem st hinv (off + 3)
  have m4 := drawn_mem st hinv (off + 4)
  have m5 := drawn_mem st hinv (off + 5)
  refine ⟨"e need to ".toList ++ drawnVerb st off ++ " our ".toList ++ drawnNoun st (off + 1)
    ++ " to ".toList ++ drawnVerb st (off + 2) ++ " ".toList ++ drawnBuzzword st (off + 3)
    ++ " and ".toList ++ drawnVerb st (off + 4) ++ " ".toList ++ drawnNoun st (off + 5), ?_, ?_⟩
  · simp [sentenceBlock]
  · simp only [List.mem_append, not_or]
    refine ⟨⟨⟨⟨⟨⟨⟨⟨⟨⟨⟨?_, ?_⟩, ?_⟩, ?_⟩, ?_⟩, ?_⟩, ?_⟩, ?_⟩, ?_⟩, ?_⟩, ?_⟩, ?_⟩
    · decide
    · exact hv _ m0.1
    · decide
    · exact hn _ m1.2.1
    · decide
    · exact hv _ m2.1
    · decide
    · exact hb _ m3.2.2
    · decide
    · exact hv _ m4.1
    · decide
    · exact hn _ m5.2.1

theorem split_at_first (x : Char) (A B pre post : List Char) (hA : x ∉ A)
    (h : pre ++ x :: post = A ++ x :: B) :
    (pre = A ∧ post = B) ∨ ∃ mid, pre = A ++ x :: mid ∧ B = mid ++ x :: post := by
  rcases List.append_eq_append_iff.mp h with ⟨a', h1, h2⟩ | ⟨c', h1, h2⟩
  · -- A = pre ++ a', x :: post = a' ++ x :: B
    cases a' with
    | nil =>
      simp only [List.nil_append, List.cons.injEq, true_and] at h2
      left; exact ⟨by simpa using h1.symm, h2⟩
    | cons y a'' =>
      simp only [List.cons_append, List.cons.injEq] at h2
      exfalso; apply hA; rw [h1, ← h2.1]; simp
  · -- pre = A ++ c', x :: B = c' ++ x :: post
    cases c' with
    | nil =>
      simp only [List.nil_append, List.cons.injEq, true_and] at h2
      left; exact ⟨by simpa using h1, h2.symm⟩
    | cons y c'' =>
      simp only [List.cons_append, List.cons.injEq] at h2
      right; exact ⟨c'', by rw [h1, h2.1], h2.2⟩

theorem blocks_props (bs : List (List Char))
    (hb : ∀ b ∈ bs, ∃ body, b = 'W' :: body ++ ['.', ' '] ∧ '.' ∉ body) :
    bs.flatten.count '.' = bs.length ∧ PeriodsThenSingleSpace bs.flatten ∧
      bs.flatten.head? ≠ some ' ' ∧ (bs ≠ [] → ['.', ' '] <:+ bs.flatten) ∧
      (bs.flatten = [] ↔ bs = []) := by
  induction bs with
  | nil =>
    refine ⟨rfl, ?_, by simp, by simp, by simp⟩
    intro pre post h
    simp at h
  | cons b bs ih =>
    obtain ⟨body, hbody, hdot⟩ := hb b (List.mem_cons_self _ _)
    obtain ⟨ih1, ih2, ih3, ih4, _⟩ := ih (fun x hx => hb x (List.mem_cons_of_mem _ hx))
    have hW : '.' ∉ 'W' :: body := by
      simp only [List.mem_cons, not_or]
      exact ⟨by decide, hdot⟩
    have hflat : (b :: bs).flatten = ('W' :: body) ++ '.' :: (' ' :: bs.flatten) := by
      rw [List.flatten_cons, hbody]; simp
    refine ⟨?_, ?_, ?_, ?_, ?_⟩
    · rw [hflat, List.count_append, List.count_eq_zero_of_not_mem hW, List.count_cons_self,
        List.count_cons_of_ne (by decide), ih1]
      simp only [List.length_cons]
      omega
    · intro pre post h
      rw [hflat] at h
      rcases split_at_first '.' _ _ pre post hW h.symm with ⟨_, h2⟩ | ⟨mid, _, h2⟩
      · exact ⟨bs.flatten, h2, ih3⟩
      · cases mid with
        | nil => simp at h2
        | cons y mid' =>
          simp only [List.cons_append, List.cons.injEq] at h2
          exact ih2 mid' post h2.2
    · rw [hflat]; simp
    · intro _
      by_cases hbs : bs = []
      · subst hbs
        rw [hflat]
        exact ⟨'W' :: body, by simp⟩
      · obtain ⟨t, ht⟩ := ih4 hbs
        rw [List.flatten_cons, ← ht]
        exact ⟨b ++ t, by simp⟩
    · rw [hflat]; simp

theorem construct_inv (rng : Nat → Nat) : Inv (construct rng) := ⟨rfl, rfl, rfl, rfl⟩

/-- C10: `generate_enterprise_speak n` is the concatenation of `n` blocks, the
`i`-th being the sentence template (with its period and one separating space)
filled left to right from the six consecutive draws `6 i, ..., 6 i + 5` (verb,
noun, verb, buzzword, verb, noun), each selected word lying in its catalogue
(15 verbs, 15 nouns, 28 buzzwords); the call advances the generator by exactly
`6 n` draws and changes nothing else. -/
theorem generate_enterprise_speak_blocks (st : Engine) (hinv : Inv st) (n : Nat) :
    generate_enterprise_speak st (n : ℤ)
        = (((List.range n).map (fun i => sentenceBlock st (6 * i))).flatten,
           { st with cursor := st.cursor + 6 * n })
      ∧ (∀ off, sentenceBlock st off
          = "We need to ".toList ++ drawnVerb st off ++ " our ".toList ++ drawnNoun st (off + 1)
            ++ " to ".toList ++ drawnVerb st (off + 2) ++ " ".toList
            ++ drawnBuzzword st (off + 3) ++ " and ".toList ++ drawnVerb st (off + 4)
            ++ " ".toList ++ drawnNoun st (off + 5) ++ ".".toList ++ " ".toList)
      ∧ (∀ i, drawnVerb st i = verbCatalogue.getD (st.rng (st.cursor + i) % 15) []
          ∧ drawnNoun st i = nounCatalogue.getD (st.rng (st.cursor + i) % 15) []
          ∧ drawnBuzzword st i = buzzwordCatalogue.getD (st.rng (st.cursor + i) % 28) [])
      ∧ (∀ i, drawnVerb st i ∈ verbCatalogue ∧ drawnNoun st i ∈ nounCatalogue
          ∧ drawnBuzzword st i ∈ buzzwordCatalogue) := by
  refine ⟨?_, fun _ => rfl, ?_, drawn_mem st hinv⟩
  · rw [generate_enterprise_speak, Int.toNat_ofNat, speakLoop_eq]
    simp
  · intro i
    obtain ⟨hb, hv, hn, _⟩ := hinv
    refine ⟨?_, ?_, ?_⟩
    · unfold drawnVerb; rw [hv]; rfl
    · unfold drawnNoun; rw [hn]; rfl
    · unfold drawnBuzzword; rw [hb]; rfl

set_option maxRecDepth 20000 in
theorem generate_enterprise_speak_blocks_witness :
    Inv (construct (fun i => 7 * i)) ∧
      (generate_enterprise_speak (construct (fun i => 7 * i)) ((2 : Nat) : ℤ)).1
        = "We need to leverage our synergies to envision core competency and architect ecosystem. We need to aggregate our paradigm to synthesize strategize and orchestrate bandwidth. ".toList := by
  refine ⟨construct_inv _, ?_⟩
  rw [(generate_enterprise_speak_blocks (construct (fun i => 7 * i)) (construct_inv _) 2).1]
  decide

/-- C9: for every `n ≥ 0` the text of `generate_enterprise_speak n` contains
exactly `n` periods, each immediately followed by exactly one space (so the text
ends with ". " when `n > 0`), and it is empty if and only if `n = 0`. -/
theorem generate_enterprise_speak_periods (st : Engine) (hinv : Inv st) (n : Nat) :
    (generate_enterprise_speak st (n : ℤ)).1.count '.' = n
      ∧ PeriodsThenSingleSpace (generate_enterprise_speak st (n : ℤ)).1
      ∧ (0 < n → ". ".toList <:+ (generate_enterprise_speak st (n : ℤ)).1)
      ∧ ((generate_enterprise_speak st (n : ℤ)).1 = [] ↔ n = 0) := by
  have hres : (generate_enterprise_speak st (n : ℤ)).1
      = ((List.range n).map (fun i => sentenceBlock st (6 * i))).flatten := by
    rw [generate_enterprise_speak, Int.toNat_ofNat, speakLoop_eq]
    simp
  have hb : ∀ b ∈ (List.range n).map (fun i => sentenceBlock st (6 * i)),
      ∃ body, b = 'W' :: body ++ ['.', ' '] ∧ '.' ∉ body := by
    intro b hb
    obtain ⟨i, _, rfl⟩ := List.mem_map.mp hb
    exact sentenceBlock_shape st hinv _
  obtain ⟨h1, h2, _, h4, h5⟩ := blocks_props _ hb
  rw [hres]
  refine ⟨by simpa using h1, h2, ?_, ?_⟩
  · intro hn
    apply h4
    intro h
    have := congrArg List.length h
    simp at this
    omega
  · rw [h5]
    simp

theorem generate_enterprise_speak_periods_witness :
    Inv (construct (fun i => i)) ∧
      ((generate_enterprise_speak (construct (fun i => i)) ((3 : Nat) : ℤ)).1.count '.' = 3
      ∧ PeriodsThenSingleSpace (generate_enterprise_speak (construct (fun i => i)) ((3 : Nat) : ℤ)).1
      ∧ (0 < 3 → ". ".toList <:+ (generate_enterprise_speak (construct (fun i => i)) ((3 : Nat) : ℤ)).1)
      ∧ ((generate_enterprise_speak (construct (fun i => i)) ((3 : Nat) : ℤ)).1 = [] ↔ 3 = 0)) :=
  ⟨construct_inv _, generate_enterprise_speak_periods (construct (fun i => i)) (construct_inv _) 3⟩

/-! ## Facts about binary64 rounding -/

theorem roundHalfEven_cases (x : ℚ) : roundHalfEven x = ⌊x⌋ ∨ roundHalfEven x = ⌊x⌋ + 1 := by
  unfold roundHalfEven
  simp only
  split_ifs <;> simp

theorem roundHalfEven_of_near (x : ℚ) (m : ℤ) (h1 : (m : ℚ) - 1 / 2 < x)
    (h2 : x < (m : ℚ) + 1 / 2) : roundHalfEven x = m := by
  unfold roundHalfEven
  simp only
  by_cases hx : (m : ℚ) ≤ x
  · have hf : ⌊x⌋ = m := Int.floor_eq_iff.mpr ⟨hx, by linarith⟩
    rw [hf, if_pos (by linarith)]
  · have hf : ⌊x⌋ = m - 1 := by
      apply Int.floor_eq_iff.mpr
      push_cast
      constructor <;> linarith
    rw [hf]
    push_cast
    rw [if_neg (by linarith), if_pos (by linarith)]
    ring

theorem roundHalfEven_intCast (m : ℤ) : roundHalfEven (m : ℚ) = m :=
  roundHalfEven_of_near _ m (by linarith) (by linarith)

theorem le_roundHalfEven (x : ℚ) (k : ℤ) (h : (k : ℚ) ≤ x) : k ≤ roundHalfEven x := by
  have hf : k ≤ ⌊x⌋ := Int.le_floor.mpr h
  rcases roundHalfEven_cases x with e | e <;> omega

theorem roundHalfEven_le (x : ℚ) (k : ℤ) (h : x ≤ (k : ℚ)) : roundHalfEven x ≤ k := by
  have hf : ⌊x⌋ ≤ k := by
    have := Int.floor_le x
    exact_mod_cast (le_trans this h)
  rcases lt_or_eq_of_le hf with hlt | heq
  · rcases roundHalfEven_cases x with e | e <;> omega
  · have hx : x = (k : ℚ) := le_antisymm h (by rw [← heq]; exact Int.floor_le x)
    rw [hx, roundHalfEven_intCast]

theorem log_eq_of_bracket (x : ℚ) (e : ℤ) (hlo : (2 : ℚ) ^ e ≤ x) (hhi : x < (2 : ℚ) ^ (e + 1)) :
    Int.log 2 x = e := by
  have hx : 0 < x := lt_of_lt_of_le (by positivity) hlo
  have h1 : e ≤ Int.log 2 x := (Int.zpow_le_iff_le_log (by norm_num) hx).mp (by exact_mod_cast hlo)
  have h2 : Int.log 2 x < e + 1 :=
    (Int.lt_zpow_iff_log_lt (by norm_num) hx).mp (by exact_mod_cast hhi)
  omega

theorem rnd_zero : rnd 0 = 0 := by simp [rnd]

theorem rnd_of_pos (x : ℚ) (hx : 0 < x) : rnd x = rndPos x := by
  simp [rnd, hx, hx.ne']

theorem rnd_eq_of_bracket (x : ℚ) (e m : ℤ) (hlo : (2 : ℚ) ^ e ≤ x)
    (hhi : x < (2 : ℚ) ^ (e + 1)) (hm : roundHalfEven (x * (2 : ℚ) ^ (52 - e)) = m) :
    rnd x = (m : ℚ) * (2 : ℚ) ^ (e - 52) := by
  have hx : 0 < x := lt_of_lt_of_le (by positivity) hlo
  rw [rnd_of_pos x hx, rndPos, log_eq_of_bracket x e hlo hhi, hm]

theorem rnd_exact (x : ℚ) (e m : ℤ) (hlo : (2 : ℚ) ^ e ≤ x)
    (hhi : x < (2 : ℚ) ^ (e + 1)) (hm : x * (2 : ℚ) ^ (52 - e) = (m : ℚ)) : rnd x = x := by
  rw [rnd_eq_of_bracket x e m hlo hhi (by rw [hm, roundHalfEven_intCast]), ← hm, mul_assoc,
    ← zpow_add₀ (by norm_num)]
  have h0 : 52 - e + (e - 52) = 0 := by ring
  rw [h0, zpow_zero, mul_one]

theorem rndPos_nonneg (x : ℚ) (hx : 0 ≤ x) : 0 ≤ rndPos x := by
  unfold rndPos
  simp only
  apply mul_nonneg _ (by positivity)
  have : (0 : ℤ) ≤ roundHalfEven (x * (2 : ℚ) ^ (52 - Int.log 2 x)) :=
    le_roundHalfEven _ 0 (by push_cast; positivity)
  exact_mod_cast this

theorem rnd_nonneg (x : ℚ) (hx : 0 ≤ x) : 0 ≤ rnd x := by
  rcases eq_or_lt_of_le hx with h | h
  · rw [← h, rnd_zero]
  · rw [rnd_of_pos x h]; exact rndPos_nonneg x hx

theorem rnd_quarter : rnd (25 / 100) = 1 / 4 := by
  have h := rnd_exact (1 / 4) (-2) (2 ^ 52) (by norm_num) (by norm_num) (by norm_num)
  have e : (25 : ℚ) / 100 = 1 / 4 := by norm_num
  rw [e, h]

theorem optimal_value :
    OPTIMAL_MEANINGLESSNESS = 4278419646001971 / 4503599627370496 := by
  unfold OPTIMAL_MEANINGLESSNESS
  rw [rnd_eq_of_bracket (95 / 100) (-1) 8556839292003942 (by norm_num) (by norm_num)
    (roundHalfEven_of_near _ _ (by norm_num) (by norm_num))]
  norm_num

theorem bruteForceHits_eq (vocabulary : List (List Char)) (text : List Char)
    (hne : ∀ b ∈ vocabulary, b ≠ []) :
    bruteForceHits vocabulary text = buzzwordHits vocabulary text := by
  unfold bruteForceHits buzzwordHits
  congr 1
  apply List.map_congr_left
  intro b hb
  rw [bruteForceCount_eq b (hne b hb), List.drop_zero]

theorem calculate_synergy_coefficient_code_eq (fuel : Nat) (st : Engine) (text : List Char)
    (hne : ∀ b ∈ st.buzzwords, b ≠ []) (hfuel : text.length < fuel) :
    calculate_synergy_coefficient fuel st text
      = some (((Double.divInt (buzzwordHits st.buzzwords text : ℤ) (word_count text)).mul
                  st.disruption_coefficient).mul OPTIMAL_MEANINGLESSNESS,
              { st with synergy_level :=
                  ((Double.divInt (buzzwordHits st.buzzwords text : ℤ)
                    (word_count text)).mul 1000).toInt }) := by
  unfold calculate_synergy_coefficient
  rw [countAll_eq fuel text hfuel st.buzzwords 0 hne, zero_add]

theorem divInt_finite (a b : ℤ) (hb : b ≠ 0) :
    Double.divInt a b = Double.finite (fdiv (a : ℚ) (b : ℚ)) := by
  simp [Double.divInt, hb]

theorem calculate_synergy_coefficient_eq (fuel : Nat) (st : Engine) (text : List Char)
    (hne : ∀ b ∈ st.buzzwords, b ≠ []) (hfuel : text.length < fuel)
    (hsize : (text.count ' ' : ℤ) + 1 < 2147483648) :
    calculate_synergy_coefficient fuel st text
      = some (Double.finite (fmul (fmul (fdiv (buzzwordHits st.buzzwords text : ℚ)
                ((text.count ' ' : ℚ) + 1)) st.disruption_coefficient) OPTIMAL_MEANINGLESSNESS),
              { st with synergy_level :=
                  Double.toInt (Double.finite (fmul (fdiv (buzzwordHits st.buzzwords text : ℚ)
                    ((text.count ' ' : ℚ) + 1)) 1000)) }) := by
  rw [calculate_synergy_coefficient_code_eq fuel st text hne hfuel, word_count_eq text hsize,
    divInt_finite _ _ (wordCount_pos text).ne']
  simp [Double.mul, wordCount]

theorem truncToInt_of_nonneg (x : ℚ) (hx : 0 ≤ x) : truncToInt x = ⌊x⌋ := by
  simp [truncToInt, hx]

theorem toInt_finite (x : ℚ) (h0 : 0 ≤ x) (h1 : x < 2147483648) :
    Double.toInt (Double.finite x) = ⌊x⌋ := by
  have hf0 : 0 ≤ ⌊x⌋ := Int.floor_nonneg.mpr h0
  have hf1 : ⌊x⌋ < 2147483648 := Int.floor_lt.mpr (by exact_mod_cast h1)
  simp only [Double.toInt, truncToInt_of_nonneg x h0, INT_MIN, INT_MAX]
  rw [if_pos ⟨by omega, by omega⟩]

theorem toInt_finite_int (k : ℤ) (h0 : 0 ≤ k) (h1 : k < 2147483648) :
    Double.toInt (Double.finite (k : ℚ)) = k := by
  rw [toInt_finite _ (by exact_mod_cast h0) (by exact_mod_cast h1), Int.floor_intCast]

theorem meets_compliance_standards_of_score (fuel : Nat) (st : Engine) (text : List Char)
    (score : Double) (st' : Engine)
    (h : calculate_synergy_coefficient fuel st text = some (score, st')) :
    meets_compliance_standards fuel st text
      = some (score.gt (rnd (25 / 100))
              && (decide (50 < word_count text) && score.lt (rnd (8 / 10)))
              && (score.mul 100).gt (MAXIMUM_COHERENCE_ALLOWED : ℚ), st') := by
  unfold meets_compliance_standards
  rw [h]

/-- C7 (amended): for every text with fewer than `2^31 - 1` spaces,
`meets_compliance_standards text` is true exactly when `score > 0.25`,
`wordCount > 50 and score < 0.8`, and `score * 100 > 20` all hold (in double
arithmetic), for `score` the value returned by
`calculate_synergy_coefficient text` and `wordCount` the number of spaces plus
one.  For every text, of any size, the verdict is the conjunction of the three
comparisons on the returned score and the `int` `word_count` (the number of
spaces plus one narrowed to `int`), and the engine state it leaves is the one
`calculate_synergy_coefficient text` leaves. -/
theorem meets_compliance_standards_spec (fuel : Nat) (st : Engine) (text : List Char)
    (hinv : Inv st) (hfuel : text.length < fuel) :
    (∃ score st',
        calculate_synergy_coefficient fuel st text = some (score, st')
        ∧ meets_compliance_standards fuel st text
            = some (score.gt (rnd (25 / 100))
                && (decide (50 < narrowToInt ((text.count ' ' : ℤ) + 1))
                    && score.lt (rnd (8 / 10)))
                && (score.mul 100).gt 20, st'))
      ∧ ((text.count ' ' : ℤ) + 1 < 2147483648 →
          ∃ score st' verdict,
            calculate_synergy_coefficient fuel st text = some (Double.finite score, st')
            ∧ meets_compliance_standards fuel st text = some (verdict, st')
            ∧ (verdict = true ↔
                (1 / 4 < score)
                ∧ ((50 : ℤ) < (text.count ' ' : ℤ) + 1 ∧ score < rnd (8 / 10))
                ∧ ((20 : ℚ) < fmul score 100))) := by
  obtain ⟨hb, hv, hn, hd⟩ := hinv
  constructor
  · have hgen := calculate_synergy_coefficient_code_eq fuel st text
      (by rw [hb]; exact catalogue_nonempty) hfuel
    refine ⟨_, _, hgen, ?_⟩
    rw [meets_compliance_standards_of_score _ _ _ _ _ hgen]
    simp [word_count, MAXIMUM_COHERENCE_ALLOWED]
  · intro hsize
    have hgen := calculate_synergy_coefficient_eq fuel st text
      (by rw [hb]; exact catalogue_nonempty) hfuel hsize
    refine ⟨_, _, _, hgen, meets_compliance_standards_of_score _ _ _ _ _ hgen, ?_⟩
    rw [word_count_eq text hsize]
    simp only [Bool.and_eq_true, decide_eq_true_eq, rnd_quarter, wordCount,
      MAXIMUM_COHERENCE_ALLOWED, Double.gt, Double.lt, Double.mul]
    norm_num
    rw [and_assoc]

theorem meets_compliance_standards_spec_witness :
    Inv (construct (fun i => i)) ∧ "synergy".toList.length < 8
    ∧ (("synergy".toList.count ' ' : ℕ) : ℤ) + 1 < 2147483648
    ∧ ∃ score st' verdict,
      calculate_synergy_coefficient 8 (construct (fun i => i)) "synergy".toList
        = some (Double.finite score, st')
      ∧ meets_compliance_standards 8 (construct (fun i => i)) "synergy".toList
          = some (verdict, st')
      ∧ (verdict = true ↔
          (1 / 4 < score)
          ∧ ((50 : ℤ) < ("synergy".toList.count ' ' : ℤ) + 1 ∧ score < rnd (8 / 10))
          ∧ ((20 : ℚ) < fmul score 100)) :=
  ⟨construct_inv _, by decide, by decide,
    (meets_compliance_standards_spec 8 (construct (fun i => i)) "synergy".toList
      (construct_inv _) (by decide)).2 (by decide)⟩

/-! ## Non-overlapping occurrences -/

theorem packs_mono (v : List Char) {n : Nat} {t : List Char} (h : Packs v n t) :
    ∀ m, m ≤ n → Packs v m t := by
  induction h with
  | zero t => intro m hm; rw [Nat.le_zero.mp hm]; exact Packs.zero t
  | skip c t n _ ih => intro m hm; exact Packs.skip c t m (ih m hm)
  | take t n hp _ ih =>
    intro m hm
    cases m with
    | zero => exact Packs.zero t
    | succ m => exact Packs.take t m hp (ih m (by omega))

theorem packs_append_left (v u : List Char) {n : Nat} {t : List Char} (h : Packs v n t) :
    Packs v n (u ++ t) := by
  induction u with
  | nil => exact h
  | cons c u ih => exact Packs.skip c _ n ih

theorem packs_drop (v : List Char) {n : Nat} {t : List Char} (h : Packs v n t) :
    ∀ m, m ≤ v.length → Packs v (n - 1) (t.drop m) := by
  induction h with
  | zero t => intro m _; exact Packs.zero _
  | skip c t n h ih =>
    intro m hm
    cases m with
    | zero => exact packs_mono v (Packs.skip c t n h) _ (by omega)
    | succ m => rw [List.drop_succ_cons]; exact ih m (by omega)
  | take t n hp h _ =>
    intro m hm
    obtain ⟨s, rfl⟩ := hp
    rw [List.drop_left] at h
    rw [List.drop_append_of_le_length hm]
    exact packs_append_left v _ h

theorem packs_nil (v : List Char) (hne : v ≠ []) {n : Nat} (h : Packs v n []) : n = 0 := by
  cases h with
  | zero => rfl
  | take _ n hp _ => exact absurd (List.prefix_nil.mp hp) hne

theorem packs_uncons (v : List Char) (c : Char) (t : List Char) (hnp : ¬ v <+: c :: t)
    {n : Nat} (h : Packs v n (c :: t)) : Packs v n t := by
  cases h with
  | zero => exact Packs.zero t
  | skip _ _ _ h => exact h
  | take _ n hp _ => exact absurd hp hnp

theorem packs_le_scan (v : List Char) (hne : v ≠ []) :
    ∀ (k : Nat) (t : List Char), t.length ≤ k → ∀ n, Packs v n t → n ≤ scanOccurrences v t := by
  intro k
  induction k with
  | zero =>
    intro t ht n h
    have : t = [] := List.length_eq_zero.mp (by omega)
    subst this
    rw [packs_nil v hne h]
    exact Nat.zero_le _
  | succ k ih =>
    intro t ht n h
    cases t with
    | nil => rw [packs_nil v hne h]; exact Nat.zero_le _
    | cons c t =>
      have hpos : 0 < v.length := List.length_pos.mpr hne
      by_cases hp : v <+: c :: t
      · rw [scanOccurrences_cons_match v c t hne hp]
        have h' := packs_drop v h v.length (le_refl _)
        have hlen : ((c :: t).drop v.length).length ≤ k := by
          rw [List.length_drop]
          simp only [List.length_cons] at ht ⊢
          omega
        have := ih _ hlen _ h'
        omega
      · rw [scanOccurrences_cons_skip v c t hp]
        exact ih t (by simpa using ht) n (packs_uncons v c t hp h)

theorem roundHalfEven_mono (x y : ℚ) (h : x ≤ y) : roundHalfEven x ≤ roundHalfEven y := by
  have hf : ⌊x⌋ ≤ ⌊y⌋ := Int.floor_mono h
  rcases lt_or_eq_of_le hf with hlt | heq
  · rcases roundHalfEven_cases x with e1 | e1 <;>
      rcases roundHalfEven_cases y with e2 | e2 <;> omega
  · unfold roundHalfEven
    simp only
    rw [heq]
    have hxy : x - (⌊y⌋ : ℚ) ≤ y - (⌊y⌋ : ℚ) := by linarith
    split_ifs <;> first | omega | (exfalso; linarith)

theorem rndPos_le_pow (x : ℚ) : rndPos x ≤ (2 : ℚ) ^ (Int.log 2 x + 1) := by
  unfold rndPos
  simp only
  have hlt : x < (2 : ℚ) ^ (Int.log 2 x + 1) := by
    exact_mod_cast Int.lt_zpow_succ_log_self (by norm_num : 1 < 2) x
  have hs : (0 : ℚ) < (2 : ℚ) ^ (52 - Int.log 2 x) := by positivity
  have hscaled : x * (2 : ℚ) ^ (52 - Int.log 2 x) ≤ ((2 ^ 53 : ℤ) : ℚ) := by
    have := mul_le_mul_of_nonneg_right hlt.le hs.le
    rw [← zpow_add₀ (by norm_num : (2 : ℚ) ≠ 0)] at this
    have e : Int.log 2 x + 1 + (52 - Int.log 2 x) = 53 := by ring
    rw [e] at this
    push_cast
    exact_mod_cast this
  have hr := roundHalfEven_le _ _ hscaled
  have hr' : (roundHalfEven (x * (2 : ℚ) ^ (52 - Int.log 2 x)) : ℚ) ≤ ((2 ^ 53 : ℤ) : ℚ) := by
    exact_mod_cast hr
  have hp : (0 : ℚ) ≤ (2 : ℚ) ^ (Int.log 2 x - 52) := by positivity
  calc (roundHalfEven (x * (2 : ℚ) ^ (52 - Int.log 2 x)) : ℚ) * (2 : ℚ) ^ (Int.log 2 x - 52)
      ≤ ((2 ^ 53 : ℤ) : ℚ) * (2 : ℚ) ^ (Int.log 2 x - 52) := mul_le_mul_of_nonneg_right hr' hp
    _ = (2 : ℚ) ^ (Int.log 2 x + 1) := by
        have e : Int.log 2 x + 1 = 53 + (Int.log 2 x - 52) := by ring
        rw [e, zpow_add₀ (by norm_num : (2 : ℚ) ≠ 0)]
        norm_num

theorem pow_le_rndPos (x : ℚ) (hx : 0 < x) : (2 : ℚ) ^ (Int.log 2 x) ≤ rndPos x := by
  unfold rndPos
  simp only
  have hle : (2 : ℚ) ^ (Int.log 2 x) ≤ x := by
    exact_mod_cast Int.zpow_log_le_self (by norm_num : 1 < 2) hx
  have hs : (0 : ℚ) < (2 : ℚ) ^ (52 - Int.log 2 x) := by positivity
  have hscaled : ((2 ^ 52 : ℤ) : ℚ) ≤ x * (2 : ℚ) ^ (52 - Int.log 2 x) := by
    have := mul_le_mul_of_nonneg_right hle hs.le
    rw [← zpow_add₀ (by norm_num : (2 : ℚ) ≠ 0)] at this
    have e : Int.log 2 x + (52 - Int.log 2 x) = 52 := by ring
    rw [e] at this
    push_cast
    exact_mod_cast this
  have hr := le_roundHalfEven _ _ hscaled
  have hr' : ((2 ^ 52 : ℤ) : ℚ) ≤ (roundHalfEven (x * (2 : ℚ) ^ (52 - Int.log 2 x)) : ℚ) := by
    exact_mod_cast hr
  have hp : (0 : ℚ) ≤ (2 : ℚ) ^ (Int.log 2 x - 52) := by positivity
  calc (2 : ℚ) ^ (Int.log 2 x) = ((2 ^ 52 : ℤ) : ℚ) * (2 : ℚ) ^ (Int.log 2 x - 52) := by
        have e : Int.log 2 x = 52 + (Int.log 2 x - 52) := by ring
        conv_lhs => rw [e, zpow_add₀ (by norm_num : (2 : ℚ) ≠ 0)]
        norm_num
    _ ≤ _ := mul_le_mul_of_nonneg_right hr' hp

theorem rnd_mono (x y : ℚ) (hx : 0 ≤ x) (h : x ≤ y) : rnd x ≤ rnd y := by
  rcases eq_or_lt_of_le hx with h0 | hpos
  · rw [← h0, rnd_zero]; exact rnd_nonneg y (le_trans hx h)
  · have hy : 0 < y := lt_of_lt_of_le hpos h
    rw [rnd_of_pos x hpos, rnd_of_pos y hy]
    have hlog : Int.log 2 x ≤ Int.log 2 y := Int.log_mono_right hpos h
    rcases lt_or_eq_of_le hlog with hlt | heq
    · calc rndPos x ≤ (2 : ℚ) ^ (Int.log 2 x + 1) := rndPos_le_pow x
        _ ≤ (2 : ℚ) ^ (Int.log 2 y) := zpow_le_zpow_right₀ (by norm_num) (by omega)
        _ ≤ rndPos y := pow_le_rndPos y hy
    · unfold rndPos
      simp only
      rw [heq]
      have hs : (0 : ℚ) ≤ (2 : ℚ) ^ (52 - Int.log 2 y) := by positivity
      have hp : (0 : ℚ) ≤ (2 : ℚ) ^ (Int.log 2 y - 52) := by positivity
      have := roundHalfEven_mono _ _ (mul_le_mul_of_nonneg_right h hs)
      exact mul_le_mul_of_nonneg_right (by exact_mod_cast this) hp

/-! ## Injection and density -/

/-- With an empty needle the `while` loop of `calculate_synergy_coefficient`
never ends: `find` succeeds at `pos` and `pos` does not advance. -/
theorem countLoop_empty_needle (text : List Char) :
    ∀ (fuel pos : Nat) (c : ℤ), pos ≤ text.length → countLoop text [] fuel pos c = none := by
  intro fuel
  induction fuel with
  | zero => intro pos c _; rfl
  | succ fuel ih =>
    intro pos c hpos
    have hf : find text [] pos = some pos := by
      unfold find
      rw [if_neg (by omega)]
      cases h : text.drop pos <;> simp [findIn, List.isPrefixOf]
    rw [countLoop, hf]
    exact ih (pos + 0) (c + 1) hpos

/-- The product and the conversion to `int` are double operations: for 201 hits
in 100 words the engine stores 2009, whereas the exact value of
`floor(201 / 100 * 1000)` is 2010. -/
theorem double_floor_example :
    truncToInt (fmul (fdiv 201 100) 1000) = 2009 ∧ ⌊(201 / 100 : ℚ) * 1000⌋ = 2010 := by
  have h1 : fdiv 201 100 = 4526117625507348 / 2251799813685248 := by
    rw [fdiv, rnd_eq_of_bracket (201 / 100) 1 4526117625507348 (by norm_num) (by norm_num)
      (roundHalfEven_of_near _ _ (by norm_num) (by norm_num))]
    norm_num
  have h2 : fmul (4526117625507348 / 2251799813685248) 1000
      = 8840073487319039 / 4398046511104 := by
    rw [fmul, rnd_eq_of_bracket _ 10 8840073487319039 (by norm_num) (by norm_num)
      (roundHalfEven_of_near _ _ (by norm_num) (by norm_num))]
    norm_num
  constructor
  · rw [h1, h2, truncToInt_of_nonneg _ (by norm_num)]
    exact Int.floor_eq_iff.mpr ⟨by norm_num, by norm_num⟩
  · exact Int.floor_eq_iff.mpr ⟨by norm_num, by norm_num⟩

/-! ## Templates -/

theorem mem_getD_index (words : List (List Char)) (w : List Char) (h : w ∈ words) :
    ∃ d, d < words.length ∧ words.getD d [] = w := by
  obtain ⟨d, hd, e⟩ := List.getElem_of_mem h
  exact ⟨d, hd, by rw [List.getD_eq_getElem _ _ hd, e]⟩

theorem generate_urgent_subject_eq (st : Engine) :
    generate_urgent_subject st
      = ("URGENT: Need to ".toList ++ drawnVerb st 0 ++ " ".toList ++ drawnNoun st 1
          ++ " by EOD".toList, { st with cursor := st.cursor + 2 }) := rfl

/-- C11: `generate_urgent_subject` returns exactly
`"URGENT: Need to " + verb + " " + noun + " by EOD"`, the verb selected by the
first draw from the 15 action verbs and the noun by the second draw from the 15
nouns, and consumes exactly these two draws; conversely every verb/noun pair is
produced by some pair of in-range draws. -/
theorem generate_urgent_subject_spec (st : Engine) (hinv : Inv st) :
    generate_urgent_subject st
        = ("URGENT: Need to ".toList ++ drawnVerb st 0 ++ " ".toList ++ drawnNoun st 1
            ++ " by EOD".toList, { st with cursor := st.cursor + 2 })
      ∧ drawnVerb st 0 = verbCatalogue.getD (st.rng st.cursor % 15) []
      ∧ drawnNoun st 1 = nounCatalogue.getD (st.rng (st.cursor + 1) % 15) []
      ∧ drawnVerb st 0 ∈ verbCatalogue ∧ drawnNoun st 1 ∈ nounCatalogue
      ∧ verbCatalogue.length = 15 ∧ nounCatalogue.length = 15
      ∧ (∀ verb ∈ verbCatalogue, ∀ noun ∈ nounCatalogue, ∃ d1 d2, d1 < 15 ∧ d2 < 15 ∧
          ∀ st' : Engine, Inv st' → st'.rng st'.cursor = d1 → st'.rng (st'.cursor + 1) = d2 →
            (generate_urgent_subject st').1
              = "URGENT: Need to ".toList ++ verb ++ " ".toList ++ noun ++ " by EOD".toList) := by
  have hv := (drawn_mem st hinv 0).1
  have hn := (drawn_mem st hinv 1).2.1
  obtain ⟨_, hav, hcn, _⟩ := hinv
  refine ⟨generate_urgent_subject_eq st, ?_, ?_, hv, hn, rfl, rfl, ?_⟩
  · unfold drawnVerb; rw [hav]; rfl
  · unfold drawnNoun; rw [hcn]; rfl
  · intro verb hverb noun hnoun
    obtain ⟨d1, h1, e1⟩ := mem_getD_index _ _ hverb
    obtain ⟨d2, h2, e2⟩ := mem_getD_index _ _ hnoun
    refine ⟨d1, d2, h1, h2, ?_⟩
    intro st' hinv' hr1 hr2
    obtain ⟨_, hav', hcn', _⟩ := hinv'
    have h15v : verbCatalogue.length = 15 := rfl
    have h15n : nounCatalogue.length = 15 := rfl
    rw [generate_urgent_subject_eq]
    simp only [drawnVerb, drawnNoun, hav', hcn', Nat.add_zero, hr1, hr2, h15v, h15n]
    rw [Nat.mod_eq_of_lt (by omega : d1 < 14 + 1), Nat.mod_eq_of_lt (by omega : d2 < 14 + 1),
      e1, e2]

set_option maxRecDepth 20000 in
theorem generate_urgent_subject_spec_witness :
    Inv (construct (fun i => i + 3)) ∧
      generate_urgent_subject (construct (fun i => i + 3))
        = ("URGENT: Need to streamline paradigm by EOD".toList,
           { construct (fun i => i + 3) with cursor := 2 }) := by
  refine ⟨construct_inv _, ?_⟩
  rw [(generate_urgent_subject_spec (construct (fun i => i + 3)) (construct_inv _)).1]
  refine Prod.ext ?_ rfl
  decide

/-- C12: `obfuscate_bad_news` ignores its argument: from the same engine state
(hence the same draws) any two messages give the same text and the same
resulting state. -/
theorem obfuscate_bad_news_ignores_message (st : Engine) (m1 m2 : List Char) :
    obfuscate_bad_news st m1 = obfuscate_bad_news st m2 := rfl

theorem obfuscate_bad_news_eq (st : Engine) (message : List Char) :
    obfuscate_bad_news st message
      = ("We're strategically ".toList ++ drawnVerb st 0 ++ "ing our ".toList
          ++ drawnNoun st 1 ++ " to ".toList ++ drawnVerb st 2 ++ " ".toList
          ++ drawnNoun st 3 ++ " and ".toList ++ drawnVerb st 4 ++ " ".toList
          ++ drawnBuzzword st 5 ++ " across ".toList ++ drawnNoun st 6
          ++ " going forward.".toList, { st with cursor := st.cursor + 7 }) := by
  simp [obfuscate_bad_news, pick, uniform_int, drawnVerb, drawnNoun, drawnBuzzword,
    Nat.add_assoc]

/-- C13: `obfuscate_bad_news` returns the seven-slot template filled from seven
consecutive draws (verb, noun, verb, noun, verb, buzzword, noun), each word from
its catalogue, with "ing" appended literally to the first verb: when the first
draw selects "leverage" the text starts "We're strategically leverageing our ". -/
theorem obfuscate_bad_news_spec (st : Engine) (hinv : Inv st) (message : List Char) :
    obfuscate_bad_news st message
        = ("We're strategically ".toList ++ drawnVerb st 0 ++ "ing our ".toList
            ++ drawnNoun st 1 ++ " to ".toList ++ drawnVerb st 2 ++ " ".toList
            ++ drawnNoun st 3 ++ " and ".toList ++ drawnVerb st 4 ++ " ".toList
            ++ drawnBuzzword st 5 ++ " across ".toList ++ drawnNoun st 6
            ++ " going forward.".toList, { st with cursor := st.cursor + 7 })
      ∧ (∀ i, drawnVerb st i = verbCatalogue.getD (st.rng (st.cursor + i) % 15) []
          ∧ drawnNoun st i = nounCatalogue.getD (st.rng (st.cursor + i) % 15) []
          ∧ drawnBuzzword st i = buzzwordCatalogue.getD (st.rng (st.cursor + i) % 28) [])
      ∧ (∀ i, drawnVerb st i ∈ verbCatalogue ∧ drawnNoun st i ∈ nounCatalogue
          ∧ drawnBuzzword st i ∈ buzzwordCatalogue)
      ∧ (st.rng st.cursor % 15 = 0 →
          "We're strategically leverageing our ".toList <+: (obfuscate_bad_news st message).1) := by
  have hmem := drawn_mem st hinv
  obtain ⟨hb, hv, hn, _⟩ := hinv
  have hidx : ∀ i, drawnVerb st i = verbCatalogue.getD (st.rng (st.cursor + i) % 15) []
      ∧ drawnNoun st i = nounCatalogue.getD (st.rng (st.cursor + i) % 15) []
      ∧ drawnBuzzword st i = buzzwordCatalogue.getD (st.rng (st.cursor + i) % 28) [] := by
    intro i
    refine ⟨?_, ?_, ?_⟩
    · unfold drawnVerb; rw [hv]; rfl
    · unfold drawnNoun; rw [hn]; rfl
    · unfold drawnBuzzword; rw [hb]; rfl
  refine ⟨obfuscate_bad_news_eq st message, hidx, hmem, ?_⟩
  intro h0
  rw [obfuscate_bad_news_eq]
  have hverb : drawnVerb st 0 = "leverage".toList := by
    rw [(hidx 0).1, Nat.add_zero, h0]; rfl
  simp only [hverb, List.append_assoc]
  exact ⟨_, rfl⟩

set_option maxRecDepth 20000 in
theorem obfuscate_bad_news_spec_witness :
    Inv (construct (fun i => 15 * i)) ∧
      obfuscate_bad_news (construct (fun i => 15 * i)) "The project is delayed".toList
        = ("We're strategically leverageing our deliverables to leverage deliverables and leverage bleeding edge across deliverables going forward.".toList,
           { construct (fun i => 15 * i) with cursor := 7 }) := by
  refine ⟨construct_inv _, ?_⟩
  rw [(obfuscate_bad_news_spec (construct (fun i => 15 * i)) (construct_inv _) _).1]
  refine Prod.ext ?_ rfl
  decide

/-! ## Lexicon -/

/-- C14 as stated fails: the constructed vocabulary has 28 entries, not 27. -/
theorem lexicon_catalogue_counterexample :
    ¬ ((construct (fun _ => 0)).buzzwords.length = 27
        ∧ (construct (fun _ => 0)).action_verbs.length = 15
        ∧ (construct (fun _ => 0)).corporate_nouns.length = 15
        ∧ (construct (fun _ => 0)).buzzwords = specVocabulary
        ∧ (construct (fun _ => 0)).action_verbs = specActionVerbs
        ∧ (construct (fun _ => 0)).corporate_nouns = specConceptNouns) := by
  intro h
  exact absurd h.1 (by decide)

/-- C14 (amended): after construction each of the three lists equals the literal
list printed in the specification; the vocabulary has exactly 28 entries (the
printed list has 28 as well), `action_verbs` 15 and `corporate_nouns` 15. -/
theorem lexicon_catalogue (rng : Nat → Nat) :
    (construct rng).buzzwords = specVocabulary
      ∧ (construct rng).action_verbs = specActionVerbs
      ∧ (construct rng).corporate_nouns = specConceptNouns
      ∧ (construct rng).buzzwords.length = 28
      ∧ (construct rng).action_verbs.length = 15
      ∧ (construct rng).corporate_nouns.length = 15
      ∧ specVocabulary.length = 28 :=
  ⟨rfl, rfl, rfl, rfl, rfl, rfl, rfl⟩

/-! ## Degenerate input and the compliance thresholds -/

theorem rnd_twenty_five : rnd 25 = 25 :=
  rnd_exact 25 4 (25 * 2 ^ 48) (by norm_num) (by norm_num) (by norm_num)

theorem percent_of_quarter (score : ℚ) (h : 1 / 4 < score) : (20 : ℚ) < fmul score 100 := by
  have h25 : (25 : ℚ) ≤ score * 100 := by linarith
  have := rnd_mono 25 (score * 100) (by norm_num) h25
  rw [rnd_twenty_five] at this
  unfold fmul
  linarith

theorem percent_of_quarter_double (score : Double) (h : score.gt (rnd (25 / 100)) = true) :
    (score.mul 100).gt 20 = true := by
  cases score with
  | finite v =>
    rw [rnd_quarter] at h
    simp only [Double.gt, Double.mul, decide_eq_true_eq] at h ⊢
    exact percent_of_quarter v h
  | infinite s =>
    simp only [Double.gt, Bool.not_eq_true'] at h
    subst h
    simp [Double.gt, Double.mul]
  | nan => simp [Double.gt] at h

theorem compliance_and (a b c d : Bool) (h : a = true → d = true) :
    (a && (c && b) && d) = (c && (a && b)) := by
  cases a <;> cases b <;> cases c <;> cases d <;> simp at h ⊢

/-- C19 (amended): the third compliance condition is implied by the first (in
double arithmetic `score > 0.25` gives `score * 100 >= 25 > 20`), so for every
text `meets_compliance_standards text` is `word_count > 50 and 0.25 < score < 0.8`
with `word_count` the `int` the engine computes (the number of spaces plus one
narrowed to `int`), and it is false for every text with fewer than 50 spaces.
For every text with fewer than `2^31 - 1` spaces `word_count` is the number of
spaces plus one and the score is a finite double. -/
theorem compliance_redundant (fuel : Nat) (st : Engine) (text : List Char)
    (hinv : Inv st) (hfuel : text.length < fuel) :
    (∃ score st',
        calculate_synergy_coefficient fuel st text = some (score, st')
        ∧ meets_compliance_standards fuel st text
            = some (decide (50 < narrowToInt ((text.count ' ' : ℤ) + 1))
                && (score.gt (rnd (25 / 100)) && score.lt (rnd (8 / 10))), st')
        ∧ (score.gt (rnd (25 / 100)) = true → (score.mul 100).gt 20 = true)
        ∧ (text.count ' ' < 50 →
            meets_compliance_standards fuel st text = some (false, st')))
      ∧ ((text.count ' ' : ℤ) + 1 < 2147483648 →
          ∃ score st',
            calculate_synergy_coefficient fuel st text = some (Double.finite score, st')
            ∧ meets_compliance_standards fuel st text
                = some (decide ((50 : ℤ) < (text.count ' ' : ℤ) + 1
                    ∧ 1 / 4 < score ∧ score < rnd (8 / 10)), st')
            ∧ (1 / 4 < score → (20 : ℚ) < fmul score 100)) := by
  obtain ⟨hb, _, _, _⟩ := hinv
  have h20 : ((MAXIMUM_COHERENCE_ALLOWED : ℤ) : ℚ) = 20 := by
    unfold MAXIMUM_COHERENCE_ALLOWED; norm_num
  have hgen := calculate_synergy_coefficient_code_eq fuel st text
    (by rw [hb]; exact catalogue_nonempty) hfuel
  have hm := meets_compliance_standards_of_score _ _ _ _ _ hgen
  generalize ((Double.divInt (buzzwordHits st.buzzwords text : ℤ) (word_count text)).mul
    st.disruption_coefficient).mul OPTIMAL_MEANINGLESSNESS = score at *
  have hall : meets_compliance_standards fuel st text
      = some (decide (50 < narrowToInt ((text.count ' ' : ℤ) + 1))
          && (score.gt (rnd (25 / 100)) && score.lt (rnd (8 / 10))),
          { st with synergy_level :=
              ((Double.divInt (buzzwordHits st.buzzwords text : ℤ)
                (word_count text)).mul 1000).toInt }) := by
    rw [hm, h20, compliance_and _ _ _ _ (percent_of_quarter_double score)]
    rfl
  constructor
  · refine ⟨score, _, hgen, hall, percent_of_quarter_double score, ?_⟩
    intro hlt
    rw [hall]
    have hw : ¬ (50 < narrowToInt ((text.count ' ' : ℤ) + 1)) := by
      rw [narrowToInt_of_range _ (by omega) (by omega)]
      omega
    simp [hw]
  · intro hsize
    have hfin := calculate_synergy_coefficient_eq fuel st text
      (by rw [hb]; exact catalogue_nonempty) hfuel hsize
    rw [hgen] at hfin
    have hsc := (Prod.mk.inj (Option.some.inj hfin)).1
    refine ⟨_, _, hgen.trans hfin, ?_, percent_of_quarter _⟩
    rw [hall, hsc]
    have hw : narrowToInt ((text.count ' ' : ℤ) + 1) = (text.count ' ' : ℤ) + 1 :=
      word_count_eq text hsize
    rw [hw, (Prod.mk.inj (Option.some.inj hfin)).2]
    simp only [Double.gt, Double.lt, rnd_quarter]
    rw [Bool.decide_and, Bool.decide_and]

theorem compliance_redundant_witness :
    Inv (construct (fun i => i)) ∧ "synergy".toList.length < 8
      ∧ (∃ score st',
          calculate_synergy_coefficient 8 (construct (fun i => i)) "synergy".toList
            = some (score, st')
          ∧ meets_compliance_standards 8 (construct (fun i => i)) "synergy".toList
              = some (false, st'))
      ∧ (("synergy".toList.count ' ' : ℕ) : ℤ) + 1 < 2147483648
      ∧ ∃ score st',
          calculate_synergy_coefficient 8 (construct (fun i => i)) "synergy".toList
            = some (Double.finite score, st')
          ∧ meets_compliance_standards 8 (construct (fun i => i)) "synergy".toList
              = some (decide ((50 : ℤ) < ("synergy".toList.count ' ' : ℤ) + 1
                  ∧ 1 / 4 < score ∧ score < rnd (8 / 10)), st') := by
  obtain ⟨⟨score, st', h1, _, _, h4⟩, hfin⟩ :=
    compliance_redundant 8 (construct (fun i => i)) "synergy".toList (construct_inv _)
      (by decide)
  obtain ⟨score', st'', g1, g2, _⟩ := hfin (by decide)
  exact ⟨construct_inv _, by decide, ⟨score, st', h1, h4 (by decide)⟩, by decide,
    score', st'', g1, g2⟩

/-! ## Frame conditions -/

theorem injectLoop_state (k : Nat) (result : List Char) (st : Engine) :
    (injectLoop k result st).2 = { st with cursor := st.cursor + k } := by
  induction k generalizing result st with
  | zero => rfl
  | succ k ih =>
    rw [injectLoop]
    have hc : st.cursor + 1 + k = st.cursor + (k + 1) := by omega
    cases find result " ".toList 0 with
    | none => simp only; rw [ih, pick_snd]; simp only [hc]
    | some pos => simp only; rw [ih, pick_snd]; simp only [hc]

theorem score_state (fuel : Nat) (st : Engine) (text : List Char) (r : Double × Engine)
    (h : calculate_synergy_coefficient fuel st text = some r) :
    r.2 = { st with synergy_level := r.2.synergy_level } := by
  unfold calculate_synergy_coefficient at h
  cases hc : countAll fuel text st.buzzwords 0 with
  | none => rw [hc] at h; simp at h
  | some c =>
    rw [hc] at h
    simp only [Option.some.injEq] at h
    rw [← h]

theorem meets_state (fuel : Nat) (st : Engine) (text : List Char) (r : Bool × Engine)
    (h : meets_compliance_standards fuel st text = some r) :
    r.2 = { st with synergy_level := r.2.synergy_level } := by
  unfold meets_compliance_standards at h
  cases hc : calculate_synergy_coefficient fuel st text with
  | none => rw [hc] at h; simp at h
  | some q =>
    rw [hc] at h
    simp only [Option.some.injEq] at h
    rw [← h]
    exact score_state fuel st text q hc

theorem reachable_inv (st : Engine) (h : Reachable st) : Inv st := by
  induction h with
  | construct rng => exact construct_inv rng
  | reinit st _ ih => exact ⟨rfl, rfl, rfl, ih.2.2.2⟩
  | speak st n _ ih =>
    rw [generate_enterprise_speak, speakLoop_eq]; exact ih
  | inject st input _ ih =>
    rw [inject_buzzwords, injectLoop_state]; exact ⟨ih.1, ih.2.1, ih.2.2.1, ih.2.2.2⟩
  | score fuel st text r _ hr ih =>
    rw [score_state fuel st text r hr]; exact ih
  | urgent st _ ih => exact ih
  | obfuscate st bad_news _ ih =>
    rw [obfuscate_bad_news_eq]; exact ih
  | meets fuel st text r _ hr ih =>
    rw [meets_state fuel st text r hr]; exact ih

/-- C15: on the explicit engine state, `generate_enterprise_speak`,
`inject_buzzwords`, `generate_urgent_subject` and `obfuscate_bad_news` change
nothing but the position of the random source, so `synergy_level` and
`disruption_coefficient` are unchanged; `calculate_synergy_coefficient` and
`meets_compliance_standards` change nothing but `synergy_level` (no draw is
consumed); and in every state reachable from construction
`disruption_coefficient = 1.0` and the three lists equal their constructed
values. -/
theorem frame_conditions :
    (∀ (st : Engine) (n : ℤ),
        (generate_enterprise_speak st n).2
          = { st with cursor := (generate_enterprise_speak st n).2.cursor })
      ∧ (∀ (st : Engine) (input : List Char),
        (inject_buzzwords st input).2 = { st with cursor := (inject_buzzwords st input).2.cursor })
      ∧ (∀ st : Engine,
        (generate_urgent_subject st).2
          = { st with cursor := (generate_urgent_subject st).2.cursor })
      ∧ (∀ (st : Engine) (message : List Char),
        (obfuscate_bad_news st message).2
          = { st with cursor := (obfuscate_bad_news st message).2.cursor })
      ∧ (∀ (fuel : Nat) (st : Engine) (text : List Char) (r : Double × Engine),
        calculate_synergy_coefficient fuel st text = some r →
          r.2 = { st with synergy_level := r.2.synergy_level })
      ∧ (∀ (fuel : Nat) (st : Engine) (text : List Char) (r : Bool × Engine),
        meets_compliance_standards fuel st text = some r →
          r.2 = { st with synergy_level := r.2.synergy_level })
      ∧ (∀ st : Engine, Reachable st →
          st.disruption_coefficient = 1 ∧ st.buzzwords = (construct st.rng).buzzwords
            ∧ st.action_verbs = (construct st.rng).action_verbs
            ∧ st.corporate_nouns = (construct st.rng).corporate_nouns) := by
  refine ⟨?_, ?_, ?_, ?_, score_state, meets_state, ?_⟩
  · intro st n
    rw [generate_enterprise_speak, speakLoop_eq]
  · intro st input
    rw [inject_buzzwords, injectLoop_state]
  · intro st
    rfl
  · intro st message
    rw [obfuscate_bad_news_eq]
  · intro st h
    obtain ⟨hb, hv, hn, hd⟩ := reachable_inv st h
    exact ⟨hd, hb, hv, hn⟩

/-! ## Termination -/

theorem findIn_some_occurrence (needle t : List Char) (idx r : Nat)
    (h : findIn needle t idx = some r) : idx ≤ r ∧ needle <+: t.drop (r - idx) := by
  induction t generalizing idx with
  | nil =>
    rw [findIn] at h
    split at h
    · rename_i hp
      simp only [Option.some.injEq] at h
      subst h
      simpa using List.isPrefixOf_iff_prefix.mp hp
    · simp at h
  | cons c t ih =>
    rw [findIn] at h
    by_cases hp : needle.isPrefixOf (c :: t) = true
    · simp only [hp, if_true, Option.some.injEq] at h
      subst h
      simpa using List.isPrefixOf_iff_prefix.mp hp
    · simp only [hp] at h
      obtain ⟨h1, h2⟩ := ih (idx + 1) h
      refine ⟨by omega, ?_⟩
      have e : r - idx = (r - (idx + 1)) + 1 := by omega
      rw [e, List.drop_succ_cons]
      exact h2

theorem find_some_occurrence (text needle : List Char) (hne : needle ≠ []) (pos p : Nat)
    (h : find text needle pos = some p) :
    pos ≤ p ∧ needle <+: text.drop p ∧ p + needle.length ≤ text.length := by
  unfold find at h
  split at h
  · simp at h
  · obtain ⟨h1, h2⟩ := findIn_some_occurrence _ _ _ _ h
    rw [List.drop_drop] at h2
    have e : pos + (p - pos) = p := by omega
    rw [e] at h2
    refine ⟨h1, h2, ?_⟩
    have hl := h2.length_le
    rw [List.length_drop] at hl
    have hpos : 0 < needle.length := List.length_pos.mpr hne
    omega

theorem countLoopTotal_some (text buzzword : List Char) (hne : buzzword ≠ []) (pos p : Nat)
    (c : ℤ) (hf : find text buzzword pos = some p) :
    countLoopTotal text buzzword hne pos c
      = countLoopTotal text buzzword hne (p + buzzword.length) (c + 1) := by
  rw [countLoopTotal]
  split
  · rename_i q hq
    rw [hf] at hq
    simp only [Option.some.injEq] at hq
    rw [hq]
  · rename_i hq
    rw [hf] at hq
    simp at hq

theorem countLoopTotal_none (text buzzword : List Char) (hne : buzzword ≠ []) (pos : Nat)
    (c : ℤ) (hf : find text buzzword pos = none) :
    countLoopTotal text buzzword hne pos c = c := by
  rw [countLoopTotal]
  split
  · rename_i q hq
    rw [hf] at hq
    simp at hq
  · rfl

theorem countLoopTotal_eq (text buzzword : List Char) (hne : buzzword ≠ []) :
    ∀ (fuel pos : Nat) (c : ℤ), text.length - pos < fuel →
      countLoop text buzzword fuel pos c = some (countLoopTotal text buzzword hne pos c) := by
  intro fuel
  induction fuel with
  | zero => intro pos c h; omega
  | succ fuel ih =>
    intro pos c h
    rw [countLoop]
    cases hf : find text buzzword pos with
    | some p =>
      obtain ⟨h1, _, h3⟩ := find_some_occurrence text buzzword hne pos p hf
      have hpos : 0 < buzzword.length := List.length_pos.mpr hne
      simp only
      rw [countLoopTotal_some text buzzword hne pos p c hf]
      exact ih (p + buzzword.length) (c + 1) (by omega)
    | none =>
      simp only
      rw [countLoopTotal_none text buzzword hne pos c hf]

theorem score_fuel_irrelevant (st : Engine) (hinv : Inv st) (text : List Char) (fuel : Nat)
    (hfuel : text.length < fuel) :
    (calculate_synergy_coefficient fuel st text).isSome = true
      ∧ calculate_synergy_coefficient fuel st text
          = calculate_synergy_coefficient (text.length + 1) st text := by
  obtain ⟨hb, _, _, _⟩ := hinv
  have hne : ∀ b ∈ st.buzzwords, b ≠ [] := by rw [hb]; exact catalogue_nonempty
  rw [calculate_synergy_coefficient_code_eq fuel st text hne hfuel,
    calculate_synergy_coefficient_code_eq (text.length + 1) st text hne (by omega)]
  exact ⟨rfl, rfl⟩

/-- C16: every operation terminates.  Each vocabulary entry has length at least
1, so a successful `find` from `pos` moves `pos` strictly forward and never past
the end of the text; the `while` loop started at `pos` therefore finishes within
`text.length - pos + 1` iterations and yields the value of the total function
`countLoopTotal` (well-founded recursion on the distance to the end of the text),
which is the count of the scan `scanOccurrences`; the two scoring operations
return a result for every text, the same for every sufficient fuel; the
injection loop runs exactly `insertions` iterations (one draw each) and the
generation loop `max(sentence_count, 0)` iterations (six draws each). -/
theorem operations_terminate (st : Engine) (hinv : Inv st) (text : List Char) :
    (∀ b ∈ st.buzzwords, 1 ≤ b.length)
      ∧ (∀ b ∈ st.buzzwords, ∀ pos p, find text b pos = some p →
          pos < p + b.length ∧ p + b.length ≤ text.length)
      ∧ (∀ b ∈ st.buzzwords, ∀ (fuel pos : Nat) (count : ℤ), text.length - pos < fuel →
          countLoop text b fuel pos count
            = some (count + (scanOccurrences b (text.drop pos) : ℤ)))
      ∧ (∀ b ∈ st.buzzwords, ∀ (hne : b ≠ []) (fuel pos : Nat) (count : ℤ),
          text.length - pos < fuel →
            countLoop text b fuel pos count = some (countLoopTotal text b hne pos count))
      ∧ (∀ fuel, text.length < fuel →
          (calculate_synergy_coefficient fuel st text).isSome = true
            ∧ calculate_synergy_coefficient fuel st text
                = calculate_synergy_coefficient (text.length + 1) st text
            ∧ (meets_compliance_standards fuel st text).isSome = true
            ∧ meets_compliance_standards fuel st text
                = meets_compliance_standards (text.length + 1) st text)
      ∧ ((inject_buzzwords st text).2.cursor
            = st.cursor + (calculate_required_buzzwords st text).toNat
          ∧ ((calculate_required_buzzwords st text).toNat : ℤ)
            = calculate_required_buzzwords st text)
      ∧ (∀ sentence_count : ℤ,
          (generate_enterprise_speak st sentence_count).2.cursor
            = st.cursor + 6 * (max sentence_count 0).toNat) := by
  have hinv' := hinv
  obtain ⟨hb, _, _, _⟩ := hinv
  have hne : ∀ b ∈ st.buzzwords, b ≠ [] := by rw [hb]; exact catalogue_nonempty
  refine ⟨?_, ?_, ?_, ?_, ?_, ⟨?_, ?_⟩, ?_⟩
  · intro b hbm
    exact List.length_pos.mpr (hne b hbm)
  · intro b hbm pos p hf
    obtain ⟨h1, _, h3⟩ := find_some_occurrence text b (hne b hbm) pos p hf
    have := List.length_pos.mpr (hne b hbm)
    exact ⟨by omega, h3⟩
  · intro b hbm fuel pos count hfuel
    exact countLoop_eq text b (hne b hbm) fuel pos count hfuel
  · intro b _ hne' fuel pos count hfuel
    exact countLoopTotal_eq text b hne' fuel pos count hfuel
  · intro fuel hfuel
    obtain ⟨h1, h2⟩ := score_fuel_irrelevant st hinv' text fuel hfuel
    have hm : meets_compliance_standards fuel st text
        = meets_compliance_standards (text.length + 1) st text := by
      unfold meets_compliance_standards
      rw [h2]
    refine ⟨h1, h2, ?_, hm⟩
    unfold meets_compliance_standards
    cases hc : calculate_synergy_coefficient fuel st text with
    | none => rw [hc] at h1; simp at h1
    | some r => rfl
  · rw [inject_buzzwords, injectLoop_state]
  · have := required_ge_three st text
    exact Int.toNat_of_nonneg (by omega)
  · intro n
    rw [generate_enterprise_speak, speakLoop_eq]
    simp only
    congr 2
    rcases le_total n 0 with h | h
    · rw [max_eq_right h, Int.toNat_of_nonpos h]; rfl
    · rw [max_eq_left h]

theorem operations_terminate_witness :
    Inv (construct (fun i => i)) ∧
      (calculate_synergy_coefficient 12 (construct (fun i => i)) "win-win-win".toList).isSome
        = true
      ∧ (generate_enterprise_speak (construct (fun i => i)) (-2)).2.cursor = 0 := by
  obtain ⟨_, _, _, _, h4, _, h6⟩ :=
    operations_terminate (construct (fun i => i)) (construct_inv _) "win-win-win".toList
  exact ⟨construct_inv _, (h4 12 (by decide)).1, h6 (-2)⟩

/-! ## The scan is a maximum packing -/

theorem countLoop_matchLoop (text buzzword : List Char) :
    ∀ (fuel pos : Nat) (c : ℤ),
      countLoop text buzzword fuel pos c
        = (matchLoop text buzzword fuel pos).map (fun ps => c + (ps.length : ℤ)) := by
  intro fuel
  induction fuel with
  | zero => intro pos c; rfl
  | succ fuel ih =>
    intro pos c
    rw [countLoop, matchLoop]
    cases find text buzzword pos with
    | none => simp
    | some p =>
      simp only
      rw [ih, Option.map_map]
      congr 1
      funext ps
      simp only [Function.comp, List.length_cons]
      push_cast
      ring

theorem matchLoop_spec (text buzzword : List Char) (hne : buzzword ≠ []) :
    ∀ (fuel pos : Nat), text.length - pos < fuel →
      ∃ ps, matchLoop text buzzword fuel pos = some ps
        ∧ (∀ p ∈ ps, pos ≤ p ∧ buzzword <+: text.drop p)
        ∧ ps.Pairwise (fun a b => a + buzzword.length ≤ b) := by
  intro fuel
  induction fuel with
  | zero => intro pos h; omega
  | succ fuel ih =>
    intro pos h
    rw [matchLoop]
    cases hf : find text buzzword pos with
    | none => exact ⟨[], rfl, by simp, List.Pairwise.nil⟩
    | some p =>
      obtain ⟨h1, h2, h3⟩ := find_some_occurrence text buzzword hne pos p hf
      have hpos : 0 < buzzword.length := List.length_pos.mpr hne
      obtain ⟨ps, e, hocc, hpw⟩ := ih (p + buzzword.length) (by omega)
      refine ⟨p :: ps, by simp only [e, Option.map_some'], ?_, ?_⟩
      · intro q hq
        rcases List.mem_cons.mp hq with rfl | hq
        · exact ⟨h1, h2⟩
        · exact ⟨by have := (hocc q hq).1; omega, (hocc q hq).2⟩
      · exact List.Pairwise.cons (fun q hq => (hocc q hq).1) hpw

theorem packs_of_positions (v text : List Char) :
    ∀ (ps : List Nat) (off : Nat), (∀ p ∈ ps, off ≤ p ∧ v <+: text.drop p) →
      ps.Pairwise (fun a b => a + v.length ≤ b) → Packs v ps.length (text.drop off) := by
  intro ps
  induction ps with
  | nil => intro off _ _; exact Packs.zero _
  | cons p ps ih =>
    intro off hocc hpw
    obtain ⟨h1, h2⟩ := hocc p (List.mem_cons_self _ _)
    have hpw' := List.pairwise_cons.mp hpw
    have hrest := ih (p + v.length)
      (fun q hq => ⟨hpw'.1 q hq, (hocc q (List.mem_cons_of_mem _ hq)).2⟩) hpw'.2
    have htake : Packs v (ps.length + 1) (text.drop p) :=
      Packs.take _ _ h2 (by rw [List.drop_drop]; exact hrest)
    have e : text.drop off = (text.drop off).take (p - off) ++ text.drop p := by
      conv_lhs => rw [← List.take_append_drop (p - off) (text.drop off)]
      rw [List.drop_drop]
      congr 2
      omega
    rw [e]
    exact packs_append_left v _ htake

theorem packs_of_occurrenceSet (v text : List Char) (hne : v ≠ []) (S : Finset Nat)
    (hS : IsOccurrenceSet text v S) : Packs v S.card text := by
  have hpos : 0 < v.length := List.length_pos.mpr hne
  have hsorted : (S.sort (· ≤ ·)).Pairwise (fun a b => a + v.length ≤ b) := by
    have h1 : (S.sort (· ≤ ·)).Pairwise (fun a b => a ≤ b ∧ a ≠ b) :=
      (Finset.sort_sorted (· ≤ ·) S).and (Finset.sort_nodup (· ≤ ·) S)
    refine List.Pairwise.imp_of_mem ?_ h1
    intro a b ha hb hab
    have ha' := (Finset.mem_sort (· ≤ ·)).mp ha
    have hb' := (Finset.mem_sort (· ≤ ·)).mp hb
    rcases hS.2 a ha' b hb' hab.2 with h | h
    · exact h
    · have := hab.1
      omega
  have := packs_of_positions v text (S.sort (· ≤ ·)) 0
    (fun p hp => ⟨Nat.zero_le _, hS.1 p ((Finset.mem_sort (· ≤ ·)).mp hp)⟩) hsorted
  rwa [Finset.length_sort, List.drop_zero] at this

/-- C20: for a non-empty buzzword the left-to-right scan of
`calculate_synergy_coefficient` counts pairwise non-overlapping occurrences (the
match positions `ps` it visits), and its count is the maximum size of any set of
pairwise non-overlapping occurrences of the buzzword in the text.  "win-win"
occurs in "win-win-win" at offsets 0 and 4 and is counted once. -/
theorem scan_count_maximal (text buzzword : List Char) (hne : buzzword ≠ []) (fuel : Nat)
    (hfuel : text.length < fuel) :
    ∃ ps : List Nat,
      matchLoop text buzzword fuel 0 = some ps
        ∧ countLoop text buzzword fuel 0 0 = some (ps.length : ℤ)
        ∧ ps.toFinset.card = ps.length
        ∧ IsOccurrenceSet text buzzword ps.toFinset
        ∧ (∀ S : Finset Nat, IsOccurrenceSet text buzzword S → S.card ≤ ps.length)
        ∧ ("win-win".toList <+: "win-win-win".toList.drop 0
            ∧ "win-win".toList <+: "win-win-win".toList.drop 4
            ∧ countLoop "win-win-win".toList "win-win".toList 12 0 0 = some 1) := by
  have hpos : 0 < buzzword.length := List.length_pos.mpr hne
  obtain ⟨ps, hm, hocc, hpw⟩ := matchLoop_spec text buzzword hne fuel 0 (by omega)
  have hcount : countLoop text buzzword fuel 0 0 = some (ps.length : ℤ) := by
    rw [countLoop_matchLoop, hm]
    simp
  have hscan : ps.length = scanOccurrences buzzword text := by
    have h := countLoop_eq text buzzword hne fuel 0 0 (by omega)
    rw [hcount, List.drop_zero] at h
    simp only [Option.some.injEq, zero_add] at h
    exact_mod_cast h
  have hnodup : ps.Nodup := hpw.imp (fun h e => by omega)
  have hsym : ps.Pairwise (fun a b => a + buzzword.length ≤ b ∨ b + buzzword.length ≤ a) :=
    hpw.imp (fun h => Or.inl h)
  refine ⟨ps, hm, hcount, List.toFinset_card_of_nodup hnodup, ⟨?_, ?_⟩, ?_, ?_⟩
  · intro s hs
    exact (hocc s (List.mem_toFinset.mp hs)).2
  · intro s hs s' hs' hne'
    exact hsym.forall (fun a b h => h.symm) (List.mem_toFinset.mp hs)
      (List.mem_toFinset.mp hs') hne'
  · intro S hS
    rw [hscan]
    exact packs_le_scan buzzword hne _ text (le_refl _) _
      (packs_of_occurrenceSet buzzword text hne S hS)
  · decide

theorem scan_count_maximal_witness :
    "win-win".toList ≠ [] ∧ "win-win-win".toList.length < 12 ∧
      ∃ ps : List Nat,
        matchLoop "win-win-win".toList "win-win".toList 12 0 = some ps
          ∧ countLoop "win-win-win".toList "win-win".toList 12 0 0 = some (ps.length : ℤ)
          ∧ ∀ S : Finset Nat,
              IsOccurrenceSet "win-win-win".toList "win-win".toList S → S.card ≤ ps.length := by
  obtain ⟨ps, h1, h2, _, _, h5, _⟩ :=
    scan_count_maximal "win-win-win".toList "win-win".toList (by decide) 12 (by decide)
  exact ⟨by decide, by decide, ps, h1, h2, h5⟩

/-! ## Uncapped score and non-positive sentence counts -/

theorem rnd_two : rnd 2 = 2 :=
  rnd_exact 2 1 (2 ^ 52) (by norm_num) (by norm_num) (by norm_num)

theorem rnd_two_thousand : rnd 2000 = 2000 :=
  rnd_exact 2000 10 (2000 * 2 ^ 42) (by norm_num) (by norm_num) (by norm_num)

theorem rnd_double_optimal :
    rnd (2 * OPTIMAL_MEANINGLESSNESS) = 2 * OPTIMAL_MEANINGLESSNESS := by
  rw [optimal_value]
  exact rnd_exact _ 0 8556839292003942 (by norm_num) (by norm_num) (by norm_num)

theorem rnd_nineteen_tenths : rnd (19 / 10) = 2 * OPTIMAL_MEANINGLESSNESS := by
  rw [optimal_value, rnd_eq_of_bracket (19 / 10) 0 8556839292003942 (by norm_num) (by norm_num)
    (roundHalfEven_of_near _ _ (by norm_num) (by norm_num))]
  norm_num

/-- C21: the score is not capped at `OPTIMAL_MEANINGLESSNESS`: hits are
substring occurrences while words are counted by spaces.  For "synergysynergy"
the word count is 1 and there are 2 hits, so the ratio is 2 > 1, the returned
score is the double 1.9 (twice the double 0.95), which exceeds 0.95, and
`synergy_level` becomes 2000 > 1000. -/
theorem score_not_capped (fuel : Nat) (st : Engine) (hinv : Inv st)
    (hfuel : "synergysynergy".toList.length < fuel) :
    wordCount "synergysynergy".toList = 1
      ∧ buzzwordHits buzzwordCatalogue "synergysynergy".toList = 2
      ∧ fdiv (buzzwordHits buzzwordCatalogue "synergysynergy".toList : ℚ)
          (("synergysynergy".toList.count ' ' : ℚ) + 1) = 2
      ∧ calculate_synergy_coefficient fuel st "synergysynergy".toList
          = some (Double.finite (2 * OPTIMAL_MEANINGLESSNESS), { st with synergy_level := 2000 })
      ∧ 2 * OPTIMAL_MEANINGLESSNESS = rnd (19 / 10)
      ∧ 2 * OPTIMAL_MEANINGLESSNESS = 4278419646001971 / 2251799813685248
      ∧ OPTIMAL_MEANINGLESSNESS < 2 * OPTIMAL_MEANINGLESSNESS
      ∧ ∃ (text : List Char) (score : ℚ) (st' : Engine),
          calculate_synergy_coefficient fuel st text = some (Double.finite score, st')
            ∧ (wordCount text : ℤ) < (buzzwordHits buzzwordCatalogue text : ℤ)
            ∧ OPTIMAL_MEANINGLESSNESS < score ∧ 1000 < st'.synergy_level := by
  obtain ⟨bw, av, cn, sl, dc, rng, cur⟩ := st
  obtain ⟨hb, _, _, hd⟩ := hinv
  simp only at hb hd
  subst hb hd
  have hgen := calculate_synergy_coefficient_eq fuel ⟨buzzwordCatalogue, av, cn, sl, 1, rng, cur⟩
    "synergysynergy".toList catalogue_nonempty hfuel (by decide)
  have hw : wordCount "synergysynergy".toList = 1 := by decide
  have hh : buzzwordHits buzzwordCatalogue "synergysynergy".toList = 2 := by
    rw [← bruteForceHits_eq _ _ catalogue_nonempty]; decide
  have hc : (("synergysynergy".toList.count ' ' : ℕ) : ℚ) + 1 = 1 := by
    have : "synergysynergy".toList.count ' ' = 0 := by decide
    rw [this]; norm_num
  have hr : fdiv (buzzwordHits buzzwordCatalogue "synergysynergy".toList : ℚ)
      (("synergysynergy".toList.count ' ' : ℚ) + 1) = 2 := by
    rw [hh, hc, fdiv]
    norm_num
    exact rnd_two
  have hpos : 0 < OPTIMAL_MEANINGLESSNESS := by rw [optimal_value]; norm_num
  have h1 : fmul (fmul 2 1) OPTIMAL_MEANINGLESSNESS = 2 * OPTIMAL_MEANINGLESSNESS := by
    simp only [fmul, mul_one, rnd_two, rnd_double_optimal]
  have h2 : Double.toInt (Double.finite (fmul 2 1000)) = 2000 := by
    have e : (2 : ℚ) * 1000 = 2000 := by norm_num
    simp only [fmul, e, rnd_two_thousand]
    exact toInt_finite_int 2000 (by norm_num) (by norm_num)
  have hscore : calculate_synergy_coefficient fuel ⟨buzzwordCatalogue, av, cn, sl, 1, rng, cur⟩
      "synergysynergy".toList
        = some (Double.finite (2 * OPTIMAL_MEANINGLESSNESS),
            { (⟨buzzwordCatalogue, av, cn, sl, 1, rng, cur⟩ : Engine) with
                synergy_level := 2000 }) := by
    rw [hgen, hr, h1, h2]
  have hval : 2 * OPTIMAL_MEANINGLESSNESS = 4278419646001971 / 2251799813685248 := by
    rw [optimal_value]; norm_num
  refine ⟨hw, hh, hr, hscore, rnd_nineteen_tenths.symm, hval, by linarith, ?_⟩
  refine ⟨"synergysynergy".toList, _, _, hscore, ?_, by linarith, by norm_num⟩
  rw [hw, hh]
  norm_num

theorem score_not_capped_witness :
    Inv (construct (fun i => i)) ∧ "synergysynergy".toList.length < 15 ∧
      calculate_synergy_coefficient 15 (construct (fun i => i)) "synergysynergy".toList
        = some (Double.finite (2 * OPTIMAL_MEANINGLESSNESS),
            { construct (fun i => i) with synergy_level := 2000 }) :=
  ⟨construct_inv _, by decide,
    (score_not_capped 15 (construct (fun i => i)) (construct_inv _) (by decide)).2.2.2.1⟩

/-- C22: a sentence count `n <= 0` behaves as zero: `generate_enterprise_speak`
returns the empty string, consumes no draw and leaves the whole engine state
unchanged (the loop condition `i < sentence_count` fails at once). -/
theorem generate_enterprise_speak_nonpositive (st : Engine) (n : ℤ) (hn : n ≤ 0) :
    generate_enterprise_speak st n = ([], st)
      ∧ (generate_enterprise_speak st n).1 = (generate_enterprise_speak st 0).1
      ∧ (generate_enterprise_speak st n).2.cursor = st.cursor := by
  have h : generate_enterprise_speak st n = ([], st) := by
    rw [generate_enterprise_speak, Int.toNat_of_nonpos hn]
    rfl
  rw [h]
  exact ⟨rfl, rfl, rfl⟩

theorem generate_enterprise_speak_nonpositive_witness :
    (-3 : ℤ) ≤ 0 ∧
      generate_enterprise_speak (construct (fun i => i)) (-3) = ([], construct (fun i => i)) :=
  ⟨by decide, (generate_enterprise_speak_nonpositive (construct (fun i => i)) (-3) (by decide)).1⟩

/-! ## Texts beyond the range of `int` -/

theorem catalogue_head_nonspace : ∀ b ∈ buzzwordCatalogue, b.head? ≠ some ' ' := by
  decide

theorem scan_replicate_append (b : List Char) (c : Char) (hb : b.head? ≠ some c) (n : Nat)
    (t : List Char) :
    scanOccurrences b (List.replicate n c ++ t) = scanOccurrences b t := by
  cases b with
  | nil => rw [scanOccurrences_empty_needle, scanOccurrences_empty_needle]
  | cons x b' =>
    have hx : x ≠ c := fun e => hb (by rw [e]; rfl)
    induction n with
    | zero => rfl
    | succ n ih =>
      rw [List.replicate_succ, List.cons_append, scanOccurrences_cons_skip _ _ _ ?_, ih]
      intro hp
      exact hx (List.cons_prefix_cons.mp hp).1

theorem hits_spaces_append (n : Nat) (t : List Char) :
    buzzwordHits buzzwordCatalogue (List.replicate n ' ' ++ t)
      = buzzwordHits buzzwordCatalogue t := by
  unfold buzzwordHits
  congr 1
  apply List.map_congr_left
  intro b hb
  exact scan_replicate_append b ' ' (catalogue_head_nonspace b hb) n t

theorem word_count_spaces_append (n : Nat) (t : List Char) :
    word_count (List.replicate n ' ' ++ t)
      = narrowToInt ((n : ℤ) + (t.count ' ' : ℤ) + 1) := by
  unfold word_count
  rw [List.count_append, List.count_replicate_self]
  push_cast
  rfl

theorem score_spaces_append (fuel : Nat) (st : Engine) (hinv : Inv st) (n : Nat)
    (t : List Char) (hfuel : n + t.length < fuel) :
    calculate_synergy_coefficient fuel st (List.replicate n ' ' ++ t)
      = some (((Double.divInt (buzzwordHits buzzwordCatalogue t : ℤ)
                  (narrowToInt ((n : ℤ) + (t.count ' ' : ℤ) + 1))).mul 1).mul
                OPTIMAL_MEANINGLESSNESS,
              { st with synergy_level :=
                  ((Double.divInt (buzzwordHits buzzwordCatalogue t : ℤ)
                    (narrowToInt ((n : ℤ) + (t.count ' ' : ℤ) + 1))).mul 1000).toInt }) := by
  obtain ⟨bw, av, cn, sl, dc, rng, cur⟩ := st
  obtain ⟨hb, _, _, hd⟩ := hinv
  simp only at hb hd
  subst hb hd
  rw [calculate_synergy_coefficient_code_eq fuel _ _ catalogue_nonempty
    (by rw [List.length_append, List.length_replicate]; exact hfuel)]
  simp only
  rw [hits_spaces_append, word_count_spaces_append]

theorem hits_runway : buzzwordHits buzzwordCatalogue "runway".toList = 1 := by
  rw [← bruteForceHits_eq _ _ catalogue_nonempty]
  decide

theorem rnd_half : rnd (1 / 2) = 1 / 2 :=
  rnd_exact (1 / 2) (-1) (2 ^ 52) (by norm_num) (by norm_num) (by norm_num)

theorem rnd_half_optimal :
    rnd (1 / 2 * OPTIMAL_MEANINGLESSNESS) = OPTIMAL_MEANINGLESSNESS / 2 := by
  have e : 1 / 2 * OPTIMAL_MEANINGLESSNESS = OPTIMAL_MEANINGLESSNESS / 2 := by ring
  rw [e, optimal_value]
  exact rnd_exact _ (-2) 8556839292003942 (by norm_num) (by norm_num) (by norm_num)

theorem rnd_five_hundred : rnd 500 = 500 :=
  rnd_exact 500 8 (500 * 2 ^ 44) (by norm_num) (by norm_num) (by norm_num)

/-- The text of `2^32 + 1` spaces followed by "runway": the `int` `word_count` is
2, the score is half the double 0.95, and the verdict is false. -/
theorem score_wrapped (st : Engine) (hinv : Inv st) :
    calculate_synergy_coefficient 4294967304 st
        (List.replicate 4294967297 ' ' ++ "runway".toList)
      = some (Double.finite (OPTIMAL_MEANINGLESSNESS / 2), { st with synergy_level := 500 })
    ∧ meets_compliance_standards 4294967304 st
        (List.replicate 4294967297 ' ' ++ "runway".toList)
      = some (false, { st with synergy_level := 500 }) := by
  have hc : "runway".toList.count ' ' = 0 := by decide
  have hw : narrowToInt (((4294967297 : ℕ) : ℤ) + (("runway".toList.count ' ' : ℕ) : ℤ) + 1)
      = 2 := by
    rw [hc]; decide
  have hs := score_spaces_append 4294967304 st hinv 4294967297 "runway".toList (by decide)
  rw [hits_runway, hw] at hs
  have h1 : Double.divInt ((1 : ℕ) : ℤ) 2 = Double.finite (1 / 2) := by
    rw [divInt_finite _ _ (by norm_num)]
    norm_num [fdiv, rnd_half]
  have h2 : ((Double.finite (1 / 2)).mul 1).mul OPTIMAL_MEANINGLESSNESS
      = Double.finite (OPTIMAL_MEANINGLESSNESS / 2) := by
    simp only [Double.mul, fmul, mul_one, rnd_half, rnd_half_optimal]
  have h3 : ((Double.finite (1 / 2)).mul 1000).toInt = 500 := by
    have e : (1 / 2 : ℚ) * 1000 = ((500 : ℤ) : ℚ) := by norm_num
    have e' : rnd ((500 : ℤ) : ℚ) = ((500 : ℤ) : ℚ) := by
      norm_num [rnd_five_hundred]
    simp only [Double.mul, fmul, e, e']
    exact toInt_finite_int 500 (by norm_num) (by norm_num)
  rw [h1, h2, h3] at hs
  refine ⟨hs, ?_⟩
  rw [meets_compliance_standards_of_score _ _ _ _ _ hs, word_count_spaces_append, hw]
  simp

theorem half_optimal_bounds :
    (1 : ℚ) / 4 < OPTIMAL_MEANINGLESSNESS / 2 ∧ OPTIMAL_MEANINGLESSNESS / 2 < rnd (8 / 10) := by
  have h := rnd_mono (1 / 2) (8 / 10) (by norm_num) (by norm_num)
  rw [rnd_half] at h
  rw [optimal_value]
  constructor
  · norm_num
  · have : (4278419646001971 : ℚ) / 4503599627370496 / 2 < 1 / 2 := by norm_num
    linarith

theorem count_wrapped :
    (50 : ℤ) < ((List.replicate 4294967297 ' ' ++ "runway".toList).count ' ' : ℤ) + 1 := by
  rw [List.count_append, List.count_replicate_self]
  have hc : "runway".toList.count ' ' = 0 := by decide
  rw [hc]
  decide

/-- C7 as stated fails: for the text of `2^32 + 1` spaces followed by "runway"
the number of spaces plus one is `2^32 + 2`, above 50, and the score is half the
double 0.95 (about 0.475), so all three conditions of the claim hold; but the
`int` `word_count` is 2 and the verdict is false. -/
theorem meets_compliance_standards_counterexample :
    calculate_synergy_coefficient 4294967304 (construct (fun _ => 0))
        (List.replicate 4294967297 ' ' ++ "runway".toList)
      = some (Double.finite (OPTIMAL_MEANINGLESSNESS / 2),
          { construct (fun _ => 0) with synergy_level := 500 })
    ∧ meets_compliance_standards 4294967304 (construct (fun _ => 0))
        (List.replicate 4294967297 ' ' ++ "runway".toList)
      = some (false, { construct (fun _ => 0) with synergy_level := 500 })
    ∧ ((1 : ℚ) / 4 < OPTIMAL_MEANINGLESSNESS / 2
        ∧ ((50 : ℤ) < ((List.replicate 4294967297 ' ' ++ "runway".toList).count ' ' : ℤ) + 1
            ∧ OPTIMAL_MEANINGLESSNESS / 2 < rnd (8 / 10))
        ∧ (20 : ℚ) < fmul (OPTIMAL_MEANINGLESSNESS / 2) 100) :=
  ⟨(score_wrapped _ (construct_inv _)).1, (score_wrapped _ (construct_inv _)).2,
    half_optimal_bounds.1, ⟨count_wrapped, half_optimal_bounds.2⟩,
    percent_of_quarter _ half_optimal_bounds.1⟩

/-- C19 as stated fails: for the text of `2^32 + 1` spaces followed by "runway",
`wordCount > 50 and 0.25 < score < 0.8` holds (`wordCount = 2^32 + 2`, score
about 0.475), yet `meets_compliance_standards` answers false, because the `int`
`word_count` is 2. -/
theorem compliance_redundant_counterexample :
    ∃ score st',
      calculate_synergy_coefficient 4294967304 (construct (fun _ => 1))
          (List.replicate 4294967297 ' ' ++ "runway".toList)
        = some (Double.finite score, st')
      ∧ meets_compliance_standards 4294967304 (construct (fun _ => 1))
          (List.replicate 4294967297 ' ' ++ "runway".toList)
        = some (false, st')
      ∧ decide ((50 : ℤ) < ((List.replicate 4294967297 ' ' ++ "runway".toList).count ' ' : ℤ) + 1
          ∧ 1 / 4 < score ∧ score < rnd (8 / 10)) = true :=
  ⟨_, _, (score_wrapped _ (construct_inv _)).1, (score_wrapped _ (construct_inv _)).2,
    decide_eq_true ⟨count_wrapped, half_optimal_bounds.1, half_optimal_bounds.2⟩⟩

end Enterprise.Synergy

namespace TPSReports.Compliance

/-- C18: `validate` returns true if and only if `report_number` and
`employee_name` are non-empty, `has_signature`, `has_date` and
`has_proper_formatting` are true and `flair_count >= 15`; the `department` field
never affects the result. -/
theorem validate_iff (sheet : CoverSheet) :
    (validate sheet = true ↔
        sheet.report_number ≠ [] ∧ sheet.employee_name ≠ [] ∧ sheet.has_signature = true
          ∧ sheet.has_date = true ∧ sheet.has_proper_formatting = true
          ∧ 15 ≤ sheet.flair_count)
      ∧ ∀ department : List Char,
          validate { sheet with department := department } = validate sheet := by
  refine ⟨?_, fun _ => rfl⟩
  obtain ⟨rn, en, dp, sg, dt, pf, fc⟩ := sheet
  simp only [validate, validateViolations, FLAIR_MINIMUM]
  cases rn <;> cases en <;> cases sg <;> cases dt <;> cases pf <;>
    by_cases hf : fc < 15 <;> first | (simp [hf]; done) | (simp [hf]; omega)

end TPSReports.Compliance
